import Mathlib

set_option maxRecDepth 20000

/-!
Shallow embedding of the MCP tool-calling core of the DouMAINovel backend:
the resilient JSON decoder (`app/services/json_helper.py`), the two adapter
strategies (`app/mcp/adapters/prompt_injection.py`,
`app/mcp/adapters/function_calling.py`) and the capability cache with its
fallback orchestrator (`app/mcp/adapters/universal.py`).

Python dynamic values are modelled by the inductive `PyVal`; Python-level
exceptions raised while navigating such values are explicit `Except` results.
Machine floats appear in the source only as wall-clock probe durations, which
no verified property depends on; times and durations are modelled as natural
numbers supplied by the environment.
-/

mutual
/-- Python runtime values, restricted to the shapes the adapters handle:
`None`, booleans, integers, strings, lists, dicts with string keys, and
attribute-carrying objects (the OpenAI SDK response objects). -/
inductive PyVal : Type where
  | pynone : PyVal
  | pybool (b : Bool) : PyVal
  | pyint (n : Int) : PyVal
  | pystr (s : String) : PyVal
  | pylist (elems : PyList) : PyVal
  | pydict (entries : PyFields) : PyVal
  | pyobj (attrs : PyFields) : PyVal

/-- Spine of a modelled Python list. -/
inductive PyList : Type where
  | nil : PyList
  | cons (hd : PyVal) (tl : PyList) : PyList

/-- Spine of a modelled Python dict or attribute table (string keys). -/
inductive PyFields : Type where
  | nil : PyFields
  | cons (key : String) (val : PyVal) (tl : PyFields) : PyFields
end

/-- Python exceptions that the adapter bodies can raise while navigating a
response value; they are all swallowed by the enclosing `try`/`except`. -/
inductive PyExn : Type where
  | indexError : PyExn
  | keyError : PyExn
  | typeError : PyExn
  | attributeError : PyExn
deriving DecidableEq, Repr

/-- Number of elements of a modelled Python list. -/
def PyList.length : PyList → Nat
  | .nil => 0
  | .cons _ t => t.length + 1

/-- The elements of a modelled Python list, as a Lean list. -/
def PyList.toList : PyList → List PyVal
  | .nil => []
  | .cons h t => h :: t.toList

/-- Build a modelled Python list from a Lean list. -/
def PyList.ofList : List PyVal → PyList
  | [] => .nil
  | h :: t => .cons h (PyList.ofList t)

/-- First binding of `key`, mirroring a Python dict lookup (keys are unique
in a real dict; insertion below keeps them unique). -/
def PyFields.lookup : PyFields → String → Option PyVal
  | .nil, _ => Option.none
  | .cons k v t, key => if k = key then some v else t.lookup key

/-- Number of entries of a modelled dict. -/
def PyFields.length : PyFields → Nat
  | .nil => 0
  | .cons _ _ t => t.length + 1

/-- The keys of a modelled dict, in insertion order. -/
def PyFields.keys : PyFields → List String
  | .nil => []
  | .cons k _ t => k :: t.keys

/-- `d.get(key, dflt)`: defined on dicts only; any other receiver lacks the
`get` method and raises `AttributeError`. -/
def pyDictGet (v : PyVal) (key : String) (dflt : PyVal) : Except PyExn PyVal :=
  match v with
  | .pydict d => .ok ((d.lookup key).getD dflt)
  | _ => .error .attributeError

/-- `v[0]`: head of a list (`IndexError` when empty), first character of a
string, `KeyError` on a dict (its keys are strings, not `0`), `TypeError`
otherwise. -/
def pyIndex0 (v : PyVal) : Except PyExn PyVal :=
  match v with
  | .pylist (.cons h _) => .ok h
  | .pylist .nil => .error .indexError
  | .pystr s =>
      match s.data with
      | [] => .error .indexError
      | c :: _ => .ok (.pystr (String.mk [c]))
  | .pydict _ => .error .keyError
  | _ => .error .typeError

/-- `len(v)` for strings, lists and dicts; `TypeError` otherwise. -/
def pyLen (v : PyVal) : Except PyExn Nat :=
  match v with
  | .pystr s => .ok s.length
  | .pylist l => .ok l.length
  | .pydict d => .ok d.length
  | _ => .error .typeError

/-- Python truthiness of a modelled value. -/
def pyTruthy (v : PyVal) : Bool :=
  match v with
  | .pynone => false
  | .pybool b => b
  | .pyint n => n != 0
  | .pystr s => s != ""
  | .pylist .nil => false
  | .pylist _ => true
  | .pydict .nil => false
  | .pydict _ => true
  | .pyobj _ => true

/-- `hasattr(v, a)`: among the modelled values only objects carry the
attributes probed by this code (`choices`, `message`, `tool_calls`, ...). -/
def pyHasAttr (v : PyVal) (a : String) : Bool :=
  match v with
  | .pyobj attrs => (attrs.lookup a).isSome
  | _ => false

/-- `getattr(v, a)`, raising `AttributeError` when absent. -/
def pyGetAttr (v : PyVal) (a : String) : Except PyExn PyVal :=
  match v with
  | .pyobj attrs =>
      match attrs.lookup a with
      | some x => .ok x
      | Option.none => .error .attributeError
  | _ => .error .attributeError

/-- `getattr(v, a, dflt)`: the three-argument form never raises. -/
def pyGetAttrD (v : PyVal) (a : String) (dflt : PyVal) : PyVal :=
  match v with
  | .pyobj attrs => (attrs.lookup a).getD dflt
  | _ => dflt

/-- Iteration `for x in v`: list elements, characters of a string (as
one-character strings), keys of a dict; `TypeError` otherwise. -/
def pyIter (v : PyVal) : Except PyExn (List PyVal) :=
  match v with
  | .pylist l => .ok l.toList
  | .pystr s => .ok (s.data.map fun c => .pystr (String.mk [c]))
  | .pydict d => .ok (d.keys.map PyVal.pystr)
  | _ => .error .typeError

mutual

/-- `str(v)`. String quoting of nested values follows `repr`; the textual
form of objects is abstracted (nothing verified depends on it). -/
def pyToStr : PyVal → String
  | .pynone => "None"
  | .pybool true => "True"
  | .pybool false => "False"
  | .pyint n => toString n
  | .pystr s => s
  | .pylist l => "[" ++ pyStrJoinL l ++ "]"
  | .pydict d => String.mk ['{'] ++ pyStrJoinF d ++ String.mk ['}']
  | .pyobj _ => "<object>"

/-- `repr(v)` as used when printing containers. -/
def pyToRepr : PyVal → String
  | .pystr s => "'" ++ s ++ "'"
  | .pylist l => "[" ++ pyStrJoinL l ++ "]"
  | .pydict d => String.mk ['{'] ++ pyStrJoinF d ++ String.mk ['}']
  | v => pyToStr v

/-- Comma-joined reprs of list elements. -/
def pyStrJoinL : PyList → String
  | .nil => ""
  | .cons h .nil => pyToRepr h
  | .cons h t => pyToRepr h ++ ", " ++ pyStrJoinL t

/-- Comma-joined reprs of dict entries. -/
def pyStrJoinF : PyFields → String
  | .nil => ""
  | .cons k v .nil => "'" ++ k ++ "': " ++ pyToRepr v
  | .cons k v t => "'" ++ k ++ "': " ++ pyToRepr v ++ ", " ++ pyStrJoinF t
end

/-! ### JSON values and `json.loads` / `json.dumps`

The adapters and the resilient decoder delegate to Python's `json` module in
strict mode.  The parser below mirrors `json.loads`: whitespace is
space/tab/newline/carriage-return, strings reject raw control characters and
unknown escapes, numbers follow the `-?(0|[1-9]\d*)(\.\d+)?([eE][-+]?\d+)?`
grammar, and the non-standard literals `NaN`, `Infinity`, `-Infinity` are
accepted.  Numeric literals are kept as lexemes (their int/float value is
never consumed by the verified code paths); a lone `\uXXXX` surrogate, which
a Lean `String` cannot hold, decodes to NUL. -/

mutual

/-- A parsed JSON value. -/
inductive JVal : Type where
  | jnull : JVal
  | jbool (b : Bool) : JVal
  | jnum (lex : String) : JVal
  | jstr (s : String) : JVal
  | jarr (elems : JArr) : JVal
  | jobj (fields : JObj) : JVal

/-- Spine of a JSON array. -/
inductive JArr : Type where
  | nil : JArr
  | cons (hd : JVal) (tl : JArr) : JArr

/-- Spine of a JSON object (duplicate keys permitted, as in `json.loads`). -/
inductive JObj : Type where
  | nil : JObj
  | cons (key : String) (val : JVal) (tl : JObj) : JObj

end

/-- JSON inter-token whitespace (`json.decoder` skips exactly these). -/
def jsonWs (c : Char) : Bool :=
  c = ' ' || c = '\t' || c = '\n' || c = '\r'

/-- Drop leading JSON whitespace. -/
def skipJsonWs : List Char → List Char
  | [] => []
  | c :: r => if jsonWs c then skipJsonWs r else c :: r

/-- Hex digit value. -/
def hexDigitVal (c : Char) : Option Nat :=
  if '0' ≤ c ∧ c ≤ '9' then some (c.toNat - '0'.toNat)
  else if 'a' ≤ c ∧ c ≤ 'f' then some (c.toNat - 'a'.toNat + 10)
  else if 'A' ≤ c ∧ c ≤ 'F' then some (c.toNat - 'A'.toNat + 10)
  else Option.none

/-- Value of a four-hex-digit escape. -/
def hex4Val (a b c d : Char) : Option Nat :=
  match hexDigitVal a, hexDigitVal b, hexDigitVal c, hexDigitVal d with
  | some x, some y, some z, some w => some (((x * 16 + y) * 16 + z) * 16 + w)
  | _, _, _, _ => Option.none

/-- Leading run of decimal digits. -/
def takeDigits : List Char → (List Char × List Char)
  | [] => ([], [])
  | c :: r =>
      if '0' ≤ c ∧ c ≤ '9' then
        let (d, rest) := takeDigits r
        (c :: d, rest)
      else ([], c :: r)

/-- Integer part of a JSON number: `0` or a nonzero digit followed by digits. -/
def jsonNumInt : List Char → Option (List Char × List Char)
  | '0' :: r => some (['0'], r)
  | c :: r =>
      if '1' ≤ c ∧ c ≤ '9' then
        let (d, rest) := takeDigits r
        some (c :: d, rest)
      else Option.none
  | [] => Option.none

/-- Optional fraction part `.digits`. -/
def jsonNumFrac : List Char → (List Char × List Char)
  | '.' :: r =>
      match takeDigits r with
      | ([], _) => ([], '.' :: r)
      | (d, rest) => ('.' :: d, rest)
  | l => ([], l)

/-- Optional exponent part `[eE][+-]?digits`. -/
def jsonNumExp : List Char → (List Char × List Char)
  | c :: r =>
      if c = 'e' ∨ c = 'E' then
        match r with
        | s :: r2 =>
            if s = '+' ∨ s = '-' then
              match takeDigits r2 with
              | ([], _) => ([], c :: r)
              | (d, rest) => (c :: s :: d, rest)
            else
              match takeDigits r with
              | ([], _) => ([], c :: r)
              | (d, rest) => (c :: d, rest)
        | [] => ([], [c])
      else ([], c :: r)
  | [] => ([], [])

/-- A JSON number lexeme starting at the head of the input (sign handled by
the caller for the leading `-`). -/
def jsonParseNum (l : List Char) : Option (List Char × List Char) :=
  match l with
  | '-' :: r =>
      match jsonNumInt r with
      | some (d, rest) =>
          let (f, rest2) := jsonNumFrac rest
          let (e, rest3) := jsonNumExp rest2
          some ('-' :: (d ++ f ++ e), rest3)
      | Option.none => Option.none
  | _ =>
      match jsonNumInt l with
      | some (d, rest) =>
          let (f, rest2) := jsonNumFrac rest
          let (e, rest3) := jsonNumExp rest2
          some (d ++ f ++ e, rest3)
      | Option.none => Option.none

mutual

/-- One JSON value at the head of the input (whitespace already skipped).
`fuel` only bounds recursion depth; `2 * length + 8` always suffices. -/
def jsonParseVal : Nat → List Char → Option (JVal × List Char)
  | 0, _ => Option.none
  | Nat.succ f, l =>
      match l with
      | '"' :: r =>
          match jsonParseStrBody f r [] with
          | some (s, rest) => some (.jstr s, rest)
          | Option.none => Option.none
      | '{' :: r => jsonParseObj f (skipJsonWs r)
      | '[' :: r => jsonParseArr f (skipJsonWs r)
      | _ =>
          if l.take 4 = ['n', 'u', 'l', 'l'] then some (.jnull, l.drop 4)
          else if l.take 4 = ['t', 'r', 'u', 'e'] then some (.jbool true, l.drop 4)
          else if l.take 5 = ['f', 'a', 'l', 's', 'e'] then
            some (.jbool false, l.drop 5)
          else if l.take 3 = ['N', 'a', 'N'] then some (.jnum "NaN", l.drop 3)
          else if l.take 8 = ['I', 'n', 'f', 'i', 'n', 'i', 't', 'y'] then
            some (.jnum "Infinity", l.drop 8)
          else if l.take 9 = ['-', 'I', 'n', 'f', 'i', 'n', 'i', 't', 'y'] then
            some (.jnum "-Infinity", l.drop 9)
          else
            match jsonParseNum l with
            | some (lex, rest) => some (.jnum (String.mk lex), rest)
            | Option.none => Option.none

/-- Body of a string literal, after the opening quote; `acc` holds the
decoded characters in reverse.  Raw control characters are rejected
(`strict=True`), escapes follow `json.decoder`. -/
def jsonParseStrBody : Nat → List Char → List Char → Option (String × List Char)
  | 0, _, _ => Option.none
  | Nat.succ f, l, acc =>
      match l with
      | [] => Option.none
      | '"' :: r => some (String.mk acc.reverse, r)
      | '\\' :: e :: r =>
          match e with
          | '"' => jsonParseStrBody f r ('"' :: acc)
          | '\\' => jsonParseStrBody f r ('\\' :: acc)
          | '/' => jsonParseStrBody f r ('/' :: acc)
          | 'b' => jsonParseStrBody f r (Char.ofNat 8 :: acc)
          | 'f' => jsonParseStrBody f r (Char.ofNat 12 :: acc)
          | 'n' => jsonParseStrBody f r ('\n' :: acc)
          | 'r' => jsonParseStrBody f r ('\r' :: acc)
          | 't' => jsonParseStrBody f r ('\t' :: acc)
          | 'u' =>
              match r with
              | a :: b :: c :: d :: r2 =>
                  match hex4Val a b c d with
                  | some code =>
                      if 0xD800 ≤ code ∧ code ≤ 0xDBFF then
                        match r2 with
                        | '\\' :: 'u' :: a2 :: b2 :: c2 :: d2 :: r3 =>
                            match hex4Val a2 b2 c2 d2 with
                            | some code2 =>
                                if 0xDC00 ≤ code2 ∧ code2 ≤ 0xDFFF then
                                  jsonParseStrBody f r3
                                    (Char.ofNat (0x10000 + (code - 0xD800) * 0x400
                                      + (code2 - 0xDC00)) :: acc)
                                else
                                  jsonParseStrBody f r2 (Char.ofNat code :: acc)
                            | Option.none => Option.none
                        | _ => jsonParseStrBody f r2 (Char.ofNat code :: acc)
                      else jsonParseStrBody f r2 (Char.ofNat code :: acc)
                  | Option.none => Option.none
              | _ => Option.none
          | _ => Option.none
      | c :: r =>
          if c.toNat < 0x20 then Option.none
          else jsonParseStrBody f r (c :: acc)

/-- Array items, positioned right after `[` with whitespace skipped. -/
def jsonParseArr : Nat → List Char → Option (JVal × List Char)
  | 0, _ => Option.none
  | Nat.succ f, l =>
      match l with
      | ']' :: r => some (.jarr .nil, r)
      | _ =>
          match jsonParseArrItems f l with
          | some (a, rest) => some (.jarr a, rest)
          | Option.none => Option.none

/-- One array item followed by `, items` or `]`. -/
def jsonParseArrItems : Nat → List Char → Option (JArr × List Char)
  | 0, _ => Option.none
  | Nat.succ f, l =>
      match jsonParseVal f l with
      | some (v, rest) =>
          match skipJsonWs rest with
          | ',' :: r2 =>
              match jsonParseArrItems f (skipJsonWs r2) with
              | some (tl, rest2) => some (.cons v tl, rest2)
              | Option.none => Option.none
          | ']' :: r2 => some (.cons v .nil, r2)
          | _ => Option.none
      | Option.none => Option.none

/-- Object members, positioned right after `{` with whitespace skipped. -/
def jsonParseObj : Nat → List Char → Option (JVal × List Char)
  | 0, _ => Option.none
  | Nat.succ f, l =>
      match l with
      | '}' :: r => some (.jobj .nil, r)
      | _ =>
          match jsonParseObjItems f l with
          | some (o, rest) => some (.jobj o, rest)
          | Option.none => Option.none

/-- One `"key": value` member followed by `, members` or `}`. -/
def jsonParseObjItems : Nat → List Char → Option (JObj × List Char)
  | 0, _ => Option.none
  | Nat.succ f, l =>
      match l with
      | '"' :: r =>
          match jsonParseStrBody f r [] with
          | some (k, rest) =>
              match skipJsonWs rest with
              | ':' :: r2 =>
                  match jsonParseVal f (skipJsonWs r2) with
                  | some (v, rest2) =>
                      match skipJsonWs rest2 with
                      | ',' :: r3 =>
                          match jsonParseObjItems f (skipJsonWs r3) with
                          | some (tl, rest3) => some (.cons k v tl, rest3)
                          | Option.none => Option.none
                      | '}' :: r3 => some (.cons k v .nil, r3)
                      | _ => Option.none
                  | Option.none => Option.none
              | _ => Option.none
          | Option.none => Option.none
      | _ => Option.none

end

/-- `json.loads` on a list of characters: skip surrounding whitespace, parse
one value, require the input to be exhausted. -/
def jsonLoadsChars (cs : List Char) : Option JVal :=
  match jsonParseVal (2 * cs.length + 8) (skipJsonWs cs) with
  | some (v, rest) => if skipJsonWs rest = [] then some v else Option.none
  | Option.none => Option.none

/-- `json.loads` on a string. -/
def json_loads (s : String) : Option JVal :=
  jsonLoadsChars s.data

/-- Whether `json.loads` succeeds on `s`. -/
def jsonValid (s : String) : Bool :=
  (json_loads s).isSome

/-- Lowercase four-digit hex rendering of a code point below `0x10000`. -/
def hex4Str (n : Nat) : String :=
  let dig := fun (k : Nat) =>
    if k < 10 then Char.ofNat ('0'.toNat + k) else Char.ofNat ('a'.toNat + k - 10)
  String.mk [dig (n / 4096 % 16), dig (n / 256 % 16), dig (n / 16 % 16), dig (n % 16)]

/-- Escaping of one character inside a dumped string
(`ensure_ascii=False`: only `\\`, `"` and control characters are escaped). -/
def jsonEscChar (c : Char) : List Char :=
  if c = '\\' then ['\\', '\\']
  else if c = '"' then ['\\', '"']
  else if c = '\n' then ['\\', 'n']
  else if c = '\r' then ['\\', 'r']
  else if c = '\t' then ['\\', 't']
  else if c.toNat = 8 then ['\\', 'b']
  else if c.toNat = 12 then ['\\', 'f']
  else if c.toNat < 0x20 then '\\' :: 'u' :: (hex4Str c.toNat).data
  else [c]

/-- A dumped string literal. -/
def jsonDumpStr (s : String) : String :=
  String.mk ('"' :: (s.data.flatMap jsonEscChar) ++ ['"'])

mutual

/-- `json.dumps(v, ensure_ascii=False)` with the default separators
`", "` and `": "`.  Numeric lexemes are emitted as recorded. -/
def json_dumps : JVal → String
  | .jnull => "null"
  | .jbool true => "true"
  | .jbool false => "false"
  | .jnum lex => lex
  | .jstr s => jsonDumpStr s
  | .jarr a => "[" ++ jsonDumpArr a ++ "]"
  | .jobj o => String.mk ['{'] ++ jsonDumpObj o ++ String.mk ['}']

/-- Comma-joined dumped array items. -/
def jsonDumpArr : JArr → String
  | .nil => ""
  | .cons v .nil => json_dumps v
  | .cons v tl => json_dumps v ++ ", " ++ jsonDumpArr tl

/-- Comma-joined dumped object members. -/
def jsonDumpObj : JObj → String
  | .nil => ""
  | .cons k v .nil => jsonDumpStr k ++ ": " ++ json_dumps v
  | .cons k v tl => jsonDumpStr k ++ ": " ++ json_dumps v ++ ", " ++ jsonDumpObj tl

end

example : jsonValid " \x7b\"a\": 1, \"b\": [true, null]\x7d " = true := by decide
example : jsonValid "\x7b\"a\": 1, \"b\": \"x" = false := by decide
example : jsonValid "\x7b\"a\": 1, \"b\": \"x\"\x7d" = true := by decide
example : jsonValid "\x7b\"a\":1 \"b\":2\x7d" = false := by decide

/-! ### `app/services/json_helper.py` — the resilient decoder

`clean_json_response` is ported stage by stage: the three markdown-fence
`re.sub`s, `str.strip`, the fast parse, the start search, the
string-aware bracket scan, `_try_fix_unclosed_json`, and the aggressive
repair chain.  Each concrete regular expression of the source is realised
as a deterministic scanner with the same match semantics (leftmost match,
greedy quantifiers, `re.MULTILINE` anchors at offset 0 and after `'\n'`,
scan resuming after each replaced match). -/

/-- Python whitespace as used by `str.strip()` and `\s` in string patterns. -/
def pyIsSpace (c : Char) : Bool :=
  c = ' ' || c = '\t' || c = '\n' || c = '\r' ||
  c.toNat = 0x0b || c.toNat = 0x0c ||
  (0x1c ≤ c.toNat && c.toNat ≤ 0x1f) ||
  c.toNat = 0x85 || c.toNat = 0xa0 || c.toNat = 0x1680 ||
  (0x2000 ≤ c.toNat && c.toNat ≤ 0x200a) ||
  c.toNat = 0x2028 || c.toNat = 0x2029 || c.toNat = 0x202f ||
  c.toNat = 0x205f || c.toNat = 0x3000

/-- `str.strip()` on a character list. -/
def pystripChars (cs : List Char) : List Char :=
  ((cs.dropWhile pyIsSpace).reverse.dropWhile pyIsSpace).reverse

/-- `str.strip()`. -/
def pystrip (s : String) : String :=
  String.mk (pystripChars s.data)

/-- Length of the run of backslashes ending just before the current scan
position, given the already-consumed characters in reverse. -/
def countLeadingBs : List Char → Nat
  | '\\' :: r => countLeadingBs r + 1
  | _ => 0

/-- Remainder after a case-insensitive <code>```json</code> prefix. -/
def fenceJsonAt : List Char → Option (List Char)
  | '`' :: '`' :: '`' :: c1 :: c2 :: c3 :: c4 :: r =>
      if (c1 = 'j' ∨ c1 = 'J') ∧ (c2 = 's' ∨ c2 = 'S') ∧
         (c3 = 'o' ∨ c3 = 'O') ∧ (c4 = 'n' ∨ c4 = 'N') then some r
      else Option.none
  | _ => Option.none

/-- Remainder after a <code>```</code> prefix. -/
def fence3At : List Char → Option (List Char)
  | '`' :: '`' :: '`' :: r => some r
  | _ => Option.none

/-- Greedy `\s*`: drop whitespace, also reporting whether the character
dropped last was a newline (so the scan position is again at a line start). -/
def dropPySpaces : List Char → Bool → (List Char × Bool)
  | [], lastNl => ([], lastNl)
  | c :: r, lastNl =>
      if pyIsSpace c then dropPySpaces r (c = '\n') else (c :: r, lastNl)

/-- One pass of <code>re.sub(r'^```json\s*\n?', '', text, re.MULTILINE |
re.IGNORECASE)</code>.  The greedy `\s*` absorbs every whitespace character
(newlines included), after which `\n?` matches the empty string; `atStart`
tracks the multiline `^` anchor. -/
def mdSubFenceJson : Nat → Bool → List Char → List Char
  | 0, _, l => l
  | Nat.succ f, atStart, l =>
      match l with
      | [] => []
      | c :: r =>
          match (if atStart then fenceJsonAt (c :: r) else Option.none) with
          | some rest =>
              let (rest2, nl) := dropPySpaces rest false
              mdSubFenceJson f nl rest2
          | Option.none => c :: mdSubFenceJson f (c = '\n') r

/-- One pass of <code>re.sub(r'^```\s*\n?', '', text, re.MULTILINE)</code>. -/
def mdSubFence : Nat → Bool → List Char → List Char
  | 0, _, l => l
  | Nat.succ f, atStart, l =>
      match l with
      | [] => []
      | c :: r =>
          match (if atStart then fence3At (c :: r) else Option.none) with
          | some rest =>
              let (rest2, nl) := dropPySpaces rest false
              mdSubFence f nl rest2
          | Option.none => c :: mdSubFence f (c = '\n') r

/-- The suffix of `ws` starting at its last newline, when it has one. -/
def suffixFromLastNl : List Char → Option (List Char)
  | [] => Option.none
  | c :: r =>
      match suffixFromLastNl r with
      | some s => some s
      | Option.none => if c = '\n' then some (c :: r) else Option.none

/-- After <code>```</code>, try the greedy `\s*$` of the closing-fence
pattern: succeed when only whitespace remains, or up to the last newline of
the following whitespace run (the multiline `$`), returning the scan
continuation point. -/
def mdCloseTail (l : List Char) : Option (List Char) :=
  let ws := l.takeWhile pyIsSpace
  let rest := l.dropWhile pyIsSpace
  match rest with
  | [] => some []
  | _ =>
      match suffixFromLastNl ws with
      | some suffix => some (suffix ++ rest)
      | Option.none => Option.none

/-- The closing-fence pattern's attempt at one scan position whose first
character is `c`: greedy `\n?`, then <code>```</code>, then `\s*$`. -/
def closeAttempt (c : Char) (r : List Char) : Option (List Char) :=
  if c = '\n' then
    match fence3At r with
    | some rest => mdCloseTail rest
    | Option.none => Option.none
  else
    match fence3At (c :: r) with
    | some rest => mdCloseTail rest
    | Option.none => Option.none

/-- One pass of <code>re.sub(r'\n?```\s*$', '', text, re.MULTILINE)</code>:
at each position try `\n?` (greedy) followed by <code>```</code> and `\s*$`;
on a match resume after the removed span, else copy one character. -/
def mdSubClose : Nat → List Char → List Char
  | 0, l => l
  | Nat.succ _, [] => []
  | Nat.succ f, c :: r =>
      match closeAttempt c r with
      | some cont => mdSubClose f cont
      | Option.none => c :: mdSubClose f r

/-- No position of `l` matches the closing-fence pattern. -/
def NoClose : List Char → Prop
  | [] => True
  | c :: r => closeAttempt c r = Option.none ∧ NoClose r

/-- The head of `l`, if any, is not a backtick. -/
def headNotTick : List Char → Prop
  | [] => True
  | c :: _ => c ≠ '`'

/-- No multiline `^` anchor position of `l` (offset 0 when `b`, and every
position following a newline) carries a backtick. -/
def noFenceStart : Bool → List Char → Prop
  | _, [] => True
  | b, c :: r => (b = true → c ≠ '`') ∧ noFenceStart (c = '\n') r

/-- The markdown-stripping prelude of `clean_json_response`: the three
`re.sub` passes followed by `strip()`. -/
def stripMarkdownFences (cs : List Char) : List Char :=
  let t1 := mdSubFenceJson (cs.length + 1) true cs
  let t2 := mdSubFence (t1.length + 1) true t1
  let t3 := mdSubClose (t2.length + 1) t2
  pystripChars t3

/-- State of the string-aware bracket scan of `clean_json_response`:
the stack of open brackets (head = top), the in-string flag, and the
consumed characters in reverse (for the backslash look-back and for
recovering `text[:end]`). -/
structure ScanState where
  stack : List Char
  inStr : Bool
  rev : List Char

/-- The bracket-matching loop of `clean_json_response` (lines 54–117): walk
the text tracking string state (a quote closes a string only after an even
number of preceding backslashes); push `{`/`[`, pop on a matching `}`/`]`
(a mismatched or extra closer is ignored), and stop with `text[:end]` when
the stack first empties on a pop. -/
def bracketScan : List Char → ScanState → Option (List Char) × ScanState
  | [], st => (Option.none, st)
  | c :: r, st =>
      if c = '"' then
        let inStr2 := if ! st.inStr then true
          else if countLeadingBs st.rev % 2 = 0 then false else true
        bracketScan r { st with inStr := inStr2, rev := c :: st.rev }
      else if st.inStr then
        bracketScan r { st with rev := c :: st.rev }
      else if c = '{' ∨ c = '[' then
        bracketScan r { st with stack := c :: st.stack, rev := c :: st.rev }
      else if c = '}' then
        match st.stack with
        | '{' :: rest =>
            if rest = [] then
              (some (c :: st.rev).reverse, { st with stack := [], rev := c :: st.rev })
            else bracketScan r { st with stack := rest, rev := c :: st.rev }
        | _ => bracketScan r { st with rev := c :: st.rev }
      else if c = ']' then
        match st.stack with
        | '[' :: rest =>
            if rest = [] then
              (some (c :: st.rev).reverse, { st with stack := [], rev := c :: st.rev })
            else bracketScan r { st with stack := rest, rev := c :: st.rev }
        | _ => bracketScan r { st with rev := c :: st.rev }
      else
        bracketScan r { st with rev := c :: st.rev }

/-- `_try_fix_unclosed_json`: close an unterminated string, then emit the
closers of the still-open brackets (top of stack first); keep the repair
only if it now parses, else return the text unchanged. -/
def tryFixUnclosedJson (text : List Char) (stack : List Char) (inStr : Bool) :
    List Char :=
  let closers := stack.map fun b => if b = '{' then '}' else ']'
  let fixed := text ++ (if inStr then ['"'] else []) ++ closers
  if (jsonLoadsChars fixed).isSome then fixed else text

/-- Body scan of a regex string literal `(?:[^"\\]|\\.)*"`: stop at the
closing quote, `\\.` consumes two characters. -/
def matchStrLitBody : List Char → Option (List Char × List Char)
  | [] => Option.none
  | '"' :: rest => some (['"'], rest)
  | '\\' :: e :: r =>
      -- the `.` of `\\.` is compiled without DOTALL, so it rejects a newline
      if e = '\n' then Option.none
      else
        match matchStrLitBody r with
        | some (body, rest) => some ('\\' :: e :: body, rest)
        | Option.none => Option.none
  | c :: r =>
      match matchStrLitBody r with
      | some (body, rest) => some (c :: body, rest)
      | Option.none => Option.none

/-- One regex string literal `"(?:[^"\\]|\\.)*"` starting at the head:
returns the literal (quotes included) and the remainder. -/
def matchStrLit : List Char → Option (List Char × List Char)
  | '"' :: r =>
      match matchStrLitBody r with
      | some (body, rest) => some ('"' :: body, rest)
      | Option.none => Option.none
  | _ => Option.none

/-- Scanner for <code>re.sub(r',\s*([}\]])', r'\1', text)</code>: a comma,
optional whitespace and a closing bracket collapse to the bracket alone. -/
def fixTrailingCommaSub : Nat → List Char → List Char
  | 0, l => l
  | Nat.succ _, [] => []
  | Nat.succ f, c :: r =>
      if c = ',' then
        match r.dropWhile pyIsSpace with
        | b :: r2 =>
            if b = '}' ∨ b = ']' then b :: fixTrailingCommaSub f r2
            else c :: fixTrailingCommaSub f r
        | [] => c :: fixTrailingCommaSub f r
      else c :: fixTrailingCommaSub f r

/-- Scanner for <code>re.sub(r'([}\]])(\s*)([{\[""])', r'\1,\2\3',
text)</code>: insert a comma between a closing bracket and a following
opening bracket or quote. -/
def insertCommaAfterCloser : Nat → List Char → List Char
  | 0, l => l
  | Nat.succ _, [] => []
  | Nat.succ f, c :: r =>
      if c = '}' ∨ c = ']' then
        let ws := r.takeWhile pyIsSpace
        match r.dropWhile pyIsSpace with
        | c3 :: r2 =>
            if c3 = '{' ∨ c3 = '[' ∨ c3 = '"' then
              c :: ',' :: (ws ++ c3 :: insertCommaAfterCloser f r2)
            else c :: insertCommaAfterCloser f r
        | [] => c :: insertCommaAfterCloser f r
      else c :: insertCommaAfterCloser f r

/-- Scanner for the string-value rule
<code>re.sub(r'("(?:[^"\\]|\\.)*")(\s+)("(?:[^"\\]|\\.)*"\s*:)', r'\1,\2\3',
text)</code>: a comma is inserted between a string value and a following
string key. -/
def insertCommaAfterStr : Nat → List Char → List Char
  | 0, l => l
  | Nat.succ _, [] => []
  | Nat.succ f, c :: r =>
      match matchStrLit (c :: r) with
      | some (lit1, rest1) =>
          let ws := rest1.takeWhile pyIsSpace
          let rest2 := rest1.dropWhile pyIsSpace
          if ws ≠ [] then
            match matchStrLit rest2 with
            | some (lit2, rest3) =>
                let ws2 := rest3.takeWhile pyIsSpace
                match rest3.dropWhile pyIsSpace with
                | ':' :: r4 =>
                    lit1 ++ ',' :: ws ++ lit2 ++ ws2 ++ ':' :: insertCommaAfterStr f r4
                | _ => c :: insertCommaAfterStr f r
            | Option.none => c :: insertCommaAfterStr f r
          else c :: insertCommaAfterStr f r
      | Option.none => c :: insertCommaAfterStr f r

/-- The scalar alternative `(\d+|true|false|null)` of the fourth rule:
returns the matched lexeme and the remainder. -/
def matchScalarTok : List Char → Option (List Char × List Char)
  | l =>
      match l with
      | 't' :: 'r' :: 'u' :: 'e' :: r => some (['t', 'r', 'u', 'e'], r)
      | 'f' :: 'a' :: 'l' :: 's' :: 'e' :: r => some (['f', 'a', 'l', 's', 'e'], r)
      | 'n' :: 'u' :: 'l' :: 'l' :: r => some (['n', 'u', 'l', 'l'], r)
      | c :: r =>
          if '0' ≤ c ∧ c ≤ '9' then
            let (d, rest) := takeDigits r
            some (c :: d, rest)
          else Option.none
      | [] => Option.none

/-- Scanner for the scalar-value rule
<code>re.sub(r'(\d+|true|false|null)(\s+)("(?:[^"\\]|\\.)*"\s*:)',
r'\1,\2\3', text)</code>. -/
def insertCommaAfterScalar : Nat → List Char → List Char
  | 0, l => l
  | Nat.succ _, [] => []
  | Nat.succ f, c :: r =>
      match matchScalarTok (c :: r) with
      | some (tok, rest1) =>
          let ws := rest1.takeWhile pyIsSpace
          let rest2 := rest1.dropWhile pyIsSpace
          if ws ≠ [] then
            match matchStrLit rest2 with
            | some (lit2, rest3) =>
                let ws2 := rest3.takeWhile pyIsSpace
                match rest3.dropWhile pyIsSpace with
                | ':' :: r4 =>
                    tok ++ ',' :: ws ++ lit2 ++ ws2 ++ ':' :: insertCommaAfterScalar f r4
                | _ => c :: insertCommaAfterScalar f r
            | Option.none => c :: insertCommaAfterScalar f r
          else c :: insertCommaAfterScalar f r
      | Option.none => c :: insertCommaAfterScalar f r

/-- Membership in the control-character class
`[\x00-\x08\x0b\x0c\x0e-\x1f\x7f-\x9f]` removed by `_fix_common_errors`. -/
def isStrippedCtl (c : Char) : Bool :=
  c.toNat ≤ 8 || c.toNat = 0x0b || c.toNat = 0x0c ||
  (0x0e ≤ c.toNat && c.toNat ≤ 0x1f) ||
  (0x7f ≤ c.toNat && c.toNat ≤ 0x9f)

/-- `_fix_unescaped_newlines_in_strings`: escape raw newlines, carriage
returns and tabs occurring inside string literals. -/
def fixNewlinesInStrings : List Char → Bool → List Char → List Char
  | [], _, acc => acc.reverse
  | c :: r, inStr, acc =>
      if c = '"' then
        let inStr2 := if ! inStr then true
          else if countLeadingBs acc % 2 = 0 then false else true
        fixNewlinesInStrings r inStr2 (c :: acc)
      else if inStr ∧ c = '\n' then fixNewlinesInStrings r inStr ('n' :: '\\' :: acc)
      else if inStr ∧ c = '\r' then fixNewlinesInStrings r inStr ('r' :: '\\' :: acc)
      else if inStr ∧ c = '\t' then fixNewlinesInStrings r inStr ('t' :: '\\' :: acc)
      else fixNewlinesInStrings r inStr (c :: acc)

/-- `_fix_common_errors`: the four comma/bracket repair rules, control
character removal, and newline escaping, in source order. -/
def fixCommonErrors (text : List Char) : List Char :=
  let r1 := fixTrailingCommaSub (text.length + 1) text
  let r2 := insertCommaAfterCloser (r1.length + 1) r1
  let r3 := insertCommaAfterStr (r2.length + 1) r2
  let r4 := insertCommaAfterScalar (r3.length + 1) r3
  let r5 := r4.filter fun c => ! isStrippedCtl c
  fixNewlinesInStrings r5 false []

/-- The `between` test of `_fix_missing_commas`: the output suffix from the
recorded value end is non-blank and holds neither a comma nor a colon. -/
def fmcBetweenOk (res : List Char) (l : Nat) : Bool :=
  let between := res.drop l
  pystripChars between ≠ [] && ! between.contains ',' && ! between.contains ':'

/-- Characters after which branch 2 of `_fix_missing_commas` does not treat
the position as a value end (the literal set <code>' \t\n\r,:[{'</code>). -/
def fmcStopChar (c : Char) : Bool :=
  c = ' ' || c = '\t' || c = '\n' || c = '\r' ||
  c = ',' || c = ':' || c = '[' || c = '{'

/-- `_fix_missing_commas`: character-by-character reconstruction that
inserts a comma before a string or opening bracket when the output since the
last recorded value end is non-blank and comma/colon-free.  `res` is the
output built so far (in order), `lve` the `last_value_end` index into it
(`none` models `-1`). -/
def fixMissingCommas : List Char → List Char → Bool → Option Nat → List Char
  | [], res, _, _ => res
  | c :: r, res, inStr, lve =>
      if c = '"' then
        if ! inStr then
          let res1 :=
            match lve with
            | some l => if fmcBetweenOk res l then res ++ [','] else res
            | Option.none => res
          fixMissingCommas r (res1 ++ [c]) true lve
        else
          if countLeadingBs res.reverse % 2 = 0 then
            fixMissingCommas r (res ++ [c]) false (some (res.length + 1))
          else
            fixMissingCommas r (res ++ [c]) true lve
      else if ! inStr ∧ (c = ' ' ∨ c = '\t' ∨ c = '\n' ∨ c = '\r') then
        let lve2 :=
          match res.getLast? with
          | some lc => if fmcStopChar lc then lve else some res.length
          | Option.none => lve
        fixMissingCommas r (res ++ [c]) inStr lve2
      else if ! inStr ∧ (c = '}' ∨ c = ']') then
        fixMissingCommas r (res ++ [c]) inStr Option.none
      else if ! inStr ∧ (c = '{' ∨ c = '[') then
        let res1 :=
          match lve with
          | some l => if fmcBetweenOk res l then res ++ [','] else res
          | Option.none => res
        fixMissingCommas r (res1 ++ [c]) inStr Option.none
      else
        fixMissingCommas r (res ++ [c]) inStr lve

/-- Descending scan of `_fix_trailing_content`: positions `i+1-1` down to
`0`; at each closing bracket try the prefix ending there. -/
def fixTrailingGo (text : List Char) : Nat → Option (List Char)
  | 0 => Option.none
  | Nat.succ i =>
      let c := text.getD i ' '
      if c = '}' ∨ c = ']' then
        let cand := text.take (i + 1)
        if (jsonLoadsChars cand).isSome then some cand else fixTrailingGo text i
      else fixTrailingGo text i

/-- `_fix_trailing_content`: cut the text at the rightmost closing bracket
that yields a parseable prefix, else keep it. -/
def fixTrailingContent (text : List Char) : List Char :=
  (fixTrailingGo text text.length).getD text

/-- Prefixes of length `k`, `k-1`, ..., `1`, first one that parses. -/
def evjPrefixes (text : List Char) : Nat → Option (List Char)
  | 0 => Option.none
  | Nat.succ k =>
      let cand := text.take (k + 1)
      if (jsonLoadsChars cand).isSome then some cand else evjPrefixes text k

/-- `_extract_valid_json`: longest parseable prefix of the whole text,
else the first `{`/`[` start whose longest parseable extent succeeds. -/
def extractValidJson (text : List Char) : Option (List Char) :=
  match evjPrefixes text text.length with
  | some c => some c
  | Option.none =>
      let starts := (List.range text.length).filter fun i =>
        text.getD i ' ' = '{' ∨ text.getD i ' ' = '['
      starts.findSome? fun s =>
        let suf := text.drop s
        evjPrefixes suf suf.length

/-- `_try_aggressive_fix`: the four repair strategies in source order, each
kept only when its output parses; otherwise the input text comes back. -/
def tryAggressiveFix (text : List Char) : List Char :=
  let r1 := fixCommonErrors text
  if (jsonLoadsChars r1).isSome then r1
  else
    let r2 := fixTrailingContent text
    if (jsonLoadsChars r2).isSome then r2
    else
      let r3 := fixMissingCommas text [] false Option.none
      if (jsonLoadsChars r3).isSome then r3
      else
        match extractValidJson text with
        | some r4 => if (jsonLoadsChars r4).isSome then r4 else text
        | Option.none => text

/-- The scan for the first `{` or `[` (lines 38–51): `clean_json_response`
returns the text unchanged when neither occurs, else continues on the
suffix from that position. -/
def dropToJsonStart : List Char → Option (List Char)
  | [] => Option.none
  | c :: r => if c = '{' ∨ c = '[' then some (c :: r) else dropToJsonStart r

/-- `clean_json_response` on characters: markdown-fence stripping and
`strip()`, the fast parse, the start search, the bracket scan with
`text[:end]` extraction, `_try_fix_unclosed_json` when brackets stay open,
and the aggressive repair chain when the result still fails to parse. -/
def cleanJsonChars (cs : List Char) : List Char :=
  if cs = [] then cs
  else
    let t := stripMarkdownFences cs
    if (jsonLoadsChars t).isSome then t
    else
      match dropToJsonStart t with
      | Option.none => t
      | some sliced =>
          let scanned := bracketScan sliced ⟨[], false, []⟩
          let result :=
            match scanned.1 with
            | some consumed => consumed
            | Option.none =>
                if scanned.2.stack ≠ [] then
                  tryFixUnclosedJson sliced scanned.2.stack scanned.2.inStr
                else sliced
          if (jsonLoadsChars result).isSome then result else tryAggressiveFix result

/-- `clean_json_response`. -/
def clean_json_response (s : String) : String :=
  String.mk (cleanJsonChars s.data)

/-- The working text of `clean_json_response` at the moment every repair has
failed: the input after fence stripping, `strip()`, and slicing to the
detected JSON span (`text[:end]` when a balanced end was found). -/
def cleanSlicedChars (cs : List Char) : List Char :=
  if cs = [] then cs
  else
    let t := stripMarkdownFences cs
    if (jsonLoadsChars t).isSome then t
    else
      match dropToJsonStart t with
      | Option.none => t
      | some sliced =>
          let scanned := bracketScan sliced ⟨[], false, []⟩
          match scanned.1 with
          | some consumed => consumed
          | Option.none => sliced

example : clean_json_response "\x7b\"a\": 1, \"b\": \"x" = "\x7b\"a\": 1, \"b\": \"x\"\x7d" := by decide
example : clean_json_response "Sure! Here is the result: \x7b\"ok\":true\x7d" = "\x7b\"ok\":true\x7d" := by decide
example : clean_json_response " \x7b\x7d" = String.mk ['{', '}'] := by decide
example : jsonValid (clean_json_response "\x7b\"a\":1 \"b\":2\x7d") = true := by decide

/-! ### `app/mcp/adapters/base.py` — shared adapter contract -/

/-- `AdapterType` (closed enumeration from `base.py`). -/
inductive AdapterType : Type where
  | FUNCTION_CALLING : AdapterType
  | PROMPT_INJECTION : AdapterType
  | REACT : AdapterType
  | XML : AdapterType
deriving DecidableEq, Repr

/-- `supports_native_tools()`: `True` for the function-calling adapter,
the base-class `False` otherwise. -/
def AdapterType.supports_native_tools : AdapterType → Bool
  | .FUNCTION_CALLING => true
  | _ => false

/-- The `ToolCallResult` dataclass.  `tool_calls` and `raw_response` are
arbitrary Python values: the dict-shaped native path passes the response's
`tool_calls` through untouched, and the exception handlers store whatever
`ai_response` currently holds. -/
structure ToolCallResult where
  tool_calls : PyVal
  raw_response : PyVal
  has_tool_calls : Bool
  needs_continuation : Bool := false

/-! ### `app/mcp/adapters/prompt_injection.py` — tag-grammar parsing

The three regular expressions `<tool_calls>(.*?)</tool_calls>`,
`<tool_call>(.*?)</tool_call>`, `<tool_name>(.*?)</tool_name>` /
`<arguments>(.*?)</arguments>` are all compiled with
`re.DOTALL | re.IGNORECASE`; the scanners below realise the leftmost-match,
non-greedy semantics: the first (case-insensitive) opening tag that is
followed by a closing tag, with the span ending at the first closing tag. -/

/-- Case-insensitive literal prefix match, returning the remainder. -/
def ciMatchPrefix : List Char → List Char → Option (List Char)
  | [], l => some l
  | _ :: _, [] => Option.none
  | p :: ps, c :: cs =>
      if p.toLower = c.toLower then ciMatchPrefix ps cs else Option.none

/-- Leftmost case-insensitive occurrence of `pat`: the characters before it
and the remainder after it. -/
def findCloseCI (pat : List Char) : List Char → Option (List Char × List Char)
  | [] => Option.none
  | c :: r =>
      match ciMatchPrefix pat (c :: r) with
      | some rest => some ([], rest)
      | Option.none =>
          match findCloseCI pat r with
          | some (content, rest) => some (c :: content, rest)
          | Option.none => Option.none

/-- `re.search(openPat + '(.*?)' + closePat, ·, re.DOTALL | re.IGNORECASE)`:
the group-1 content and the remainder after the whole match. -/
def searchTagPair (openPat closePat : List Char) : List Char → Option (List Char × List Char)
  | [] => Option.none
  | c :: r =>
      match ciMatchPrefix openPat (c :: r) with
      | some afterOpen =>
          match findCloseCI closePat afterOpen with
          | some res => some res
          | Option.none => searchTagPair openPat closePat r
      | Option.none => searchTagPair openPat closePat r

/-- `re.findall` of the same pattern: group-1 contents of the successive
non-overlapping matches, in document order. -/
def findAllTagPairs : Nat → List Char → List Char → List Char → List (List Char)
  | 0, _, _, _ => []
  | Nat.succ f, openPat, closePat, l =>
      match searchTagPair openPat closePat l with
      | some (content, rest) => content :: findAllTagPairs f openPat closePat rest
      | Option.none => []

/-- `<tool_calls>` opening tag. -/
def tagCallsOpen : List Char := "<tool_calls>".data

/-- `</tool_calls>` closing tag. -/
def tagCallsClose : List Char := "</tool_calls>".data

/-- `<tool_call>` opening tag. -/
def tagCallOpen : List Char := "<tool_call>".data

/-- `</tool_call>` closing tag. -/
def tagCallClose : List Char := "</tool_call>".data

/-- `<tool_name>` opening tag. -/
def tagNameOpen : List Char := "<tool_name>".data

/-- `</tool_name>` closing tag. -/
def tagNameClose : List Char := "</tool_name>".data

/-- `<arguments>` opening tag. -/
def tagArgsOpen : List Char := "<arguments>".data

/-- `</arguments>` closing tag. -/
def tagArgsClose : List Char := "</arguments>".data

/-- Loop body for one `<tool_call>` span at position `i` of the extracted
span list: extract `<tool_name>` and `<arguments>`, skip the entry when a
tag is missing or the arguments body is not JSON, else build the normalized
`{id: "call_i", type: "function", function: {name, arguments}}` mapping
with the arguments re-serialised by `json.dumps(·, ensure_ascii=False)`. -/
def piMkCall (i : Nat) (m : List Char) : Option PyVal :=
  match searchTagPair tagNameOpen tagNameClose m,
        searchTagPair tagArgsOpen tagArgsClose m with
  | some (nameC, _), some (argsC, _) =>
      let tool_name := String.mk (pystripChars nameC)
      let argsStr := pystripChars argsC
      match jsonLoadsChars argsStr with
      | some j =>
          some (.pydict (.cons "id" (.pystr ("call_" ++ toString i))
            (.cons "type" (.pystr "function")
              (.cons "function" (.pydict (.cons "name" (.pystr tool_name)
                (.cons "arguments" (.pystr (json_dumps j)) .nil))) .nil))))
      | Option.none => Option.none
  | _, _ => Option.none

/-- The `for i, tool_call_content in enumerate(tool_call_matches)` loop:
`acc` is the list built so far, `i` the enumeration counter (counting every
extracted span, parsed or skipped). -/
def piLoop : List (List Char) → Nat → List PyVal → List PyVal
  | [], _, acc => acc
  | m :: ms, i, acc =>
      match piMkCall i m with
      | some call => piLoop ms (i + 1) (acc ++ [call])
      | Option.none => piLoop ms (i + 1) acc

/-- `PromptInjectionAdapter.parse_tool_calls` on an (already normalized)
string response. -/
def piParseStr (s : String) : ToolCallResult :=
  match searchTagPair tagCallsOpen tagCallsClose s.data with
  | Option.none =>
      { tool_calls := .pylist .nil, raw_response := .pystr s
        has_tool_calls := false, needs_continuation := false }
  | some (content, _) =>
      let tool_call_matches := findAllTagPairs (content.length + 1) tagCallOpen tagCallClose content
      let tool_calls := piLoop tool_call_matches 0 []
      let has_tool_calls := ! tool_calls.isEmpty
      { tool_calls := .pylist (PyList.ofList tool_calls), raw_response := .pystr s
        has_tool_calls := has_tool_calls, needs_continuation := has_tool_calls }

/-- Body of `PromptInjectionAdapter.parse_tool_calls` inside the `try`: a
raised exception carries the then-current value of the (reassigned)
`ai_response` local, which the handler stores as `raw_response`. -/
def piParseBody (v : PyVal) : Except (PyExn × PyVal) ToolCallResult :=
  match v with
  | .pydict _ =>
      match (do
          let choices ← pyDictGet v "choices" (.pylist (.cons (.pydict .nil) .nil))
          let first ← pyIndex0 choices
          let message ← pyDictGet first "message" (.pydict .nil)
          pyDictGet message "content" (.pystr "") : Except PyExn PyVal) with
      | .error e => .error (e, v)
      | .ok content =>
          if ! pyTruthy content then
            .ok { tool_calls := .pylist .nil, raw_response := .pystr ""
                  has_tool_calls := false, needs_continuation := false }
          else
            match content with
            | .pystr s => .ok (piParseStr s)
            | _ => .error (.typeError, content)
  | .pystr s => .ok (piParseStr s)
  | _ => .ok (piParseStr (pyToStr v))

/-- `PromptInjectionAdapter.parse_tool_calls`: the body with every raised
exception caught into the empty result. -/
def PromptInjectionAdapter.parse_tool_calls (ai_response : PyVal) : ToolCallResult :=
  match piParseBody ai_response with
  | .ok r => r
  | .error e =>
      { tool_calls := .pylist .nil, raw_response := e.2
        has_tool_calls := false, needs_continuation := false }

/-! ### `app/mcp/adapters/function_calling.py` — native response parsing -/

/-- The list-comprehension element of the object path: copy `tc.id`,
`tc.type`, `tc.function.name`, `tc.function.arguments` verbatim into a
mapping (an `AttributeError` on a malformed element propagates to the
enclosing handler). -/
def fcConvert (tc : PyVal) : Except PyExn PyVal := do
  let i ← pyGetAttr tc "id"
  let ty ← pyGetAttr tc "type"
  let fn ← pyGetAttr tc "function"
  let name ← pyGetAttr fn "name"
  let args ← pyGetAttr fn "arguments"
  return .pydict (.cons "id" i (.cons "type" ty
    (.cons "function" (.pydict (.cons "name" name
      (.cons "arguments" args .nil))) .nil)))

/-- Body of `FunctionCallingAdapter.parse_tool_calls` inside the `try`:
the dict shape passes `message["tool_calls"]` through untouched, the object
shape converts each element with `fcConvert`, anything else degrades to a
plain-text result. -/
def fcParseBody (v : PyVal) : Except PyExn ToolCallResult := do
  match v with
  | .pydict _ =>
      let choices ← pyDictGet v "choices" (.pylist (.cons (.pydict .nil) .nil))
      let first ← pyIndex0 choices
      let message ← pyDictGet first "message" (.pydict .nil)
      let tool_calls ← pyDictGet message "tool_calls" (.pylist .nil)
      let content ← pyDictGet message "content" (.pystr "")
      let n ← pyLen tool_calls
      return { tool_calls := tool_calls
               raw_response := if pyTruthy content then content else .pystr ""
               has_tool_calls := decide (0 < n), needs_continuation := decide (0 < n) }
  | _ =>
      if pyHasAttr v "choices" then do
        let choices ← pyGetAttr v "choices"
        let first ← pyIndex0 choices
        let message ← pyGetAttr first "message"
        let tc0 := pyGetAttrD message "tool_calls" .pynone
        let tool_calls0 := if pyTruthy tc0 then tc0 else .pylist .nil
        let c0 := pyGetAttrD message "content" (.pystr "")
        let content := if pyTruthy c0 then c0 else .pystr ""
        let tool_calls ←
          if pyTruthy tool_calls0 then do
            let items ← pyIter tool_calls0
            let mapped ← items.mapM fcConvert
            pure (PyVal.pylist (PyList.ofList mapped))
          else pure tool_calls0
        let n ← pyLen tool_calls
        return { tool_calls := tool_calls
                 raw_response := if pyTruthy content then content else .pystr ""
                 has_tool_calls := decide (0 < n), needs_continuation := decide (0 < n) }
      else
        return { tool_calls := .pylist .nil, raw_response := .pystr (pyToStr v)
                 has_tool_calls := false, needs_continuation := false }

/-- `FunctionCallingAdapter.parse_tool_calls`: the body with every raised
exception caught into the empty result (`raw_response = str(ai_response)`). -/
def FunctionCallingAdapter.parse_tool_calls (ai_response : PyVal) : ToolCallResult :=
  match fcParseBody ai_response with
  | .ok r => r
  | .error _ =>
      { tool_calls := .pylist .nil, raw_response := .pystr (pyToStr ai_response)
        has_tool_calls := false, needs_continuation := false }

/-! ### `app/mcp/adapters/universal.py` — capability cache and fallback -/

/-- Case-sensitive literal prefix match, returning the remainder. -/
def matchExactPrefix : List Char → List Char → Option (List Char)
  | [], l => some l
  | _ :: _, [] => Option.none
  | p :: ps, c :: cs => if p = c then matchExactPrefix ps cs else Option.none

/-- Substring containment on character lists (Python `needle in str`). -/
def listContainsSub (pat : List Char) : List Char → Bool
  | [] => pat.isEmpty
  | c :: r =>
      match matchExactPrefix pat (c :: r) with
      | some _ => true
      | Option.none => listContainsSub pat r

/-- Python `needle in container` for the containers this code meets:
key containment for dicts, substring for strings, element equality for
lists; `TypeError` otherwise. -/
def pyContains (needle : String) (container : PyVal) : Except PyExn Bool :=
  match container with
  | .pydict d => .ok (d.lookup needle).isSome
  | .pystr s => .ok (listContainsSub needle.data s.data)
  | .pylist l => .ok (l.toList.any fun x =>
      match x with
      | .pystr t => t = needle
      | _ => false)
  | _ => .error .typeError

/-- `UniversalMCPAdapter._is_function_calling_response`: detect a tool-call
field in either response shape; any exception yields `False`. -/
def isFunctionCallingResponse (response : PyVal) : Bool :=
  let body : Except PyExn Bool :=
    match response with
    | .pydict _ => do
        let choices ← pyDictGet response "choices" (.pylist (.cons (.pydict .nil) .nil))
        let first ← pyIndex0 choices
        let message ← pyDictGet first "message" (.pydict .nil)
        let a ← pyContains "tool_calls" message
        if a then pure true else pyContains "function_call" message
    | _ =>
        if pyHasAttr response "choices" then do
          let choices ← pyGetAttr response "choices"
          let first ← pyIndex0 choices
          let message ← pyGetAttr first "message"
          pure (pyHasAttr message "tool_calls" || pyHasAttr message "function_call")
        else pure false
  match body with
  | .ok b => b
  | .error _ => false

/-- The `APICapability` dataclass.  `tested_at` is an abstract timestamp and
`test_duration_ms` an abstract duration (the source measures wall-clock
floats; nothing verified depends on their values). -/
structure APICapability where
  supports_function_calling : Bool
  tested_at : Nat
  test_duration_ms : Nat
  error_message : Option String := Option.none
deriving DecidableEq, Repr

/-- The capability cache `{api_identifier: APICapability}`, as the finite
map it is (a Python dict holds at most one binding per key). -/
def CapCache : Type := String → Option APICapability

/-- Cache lookup. -/
def cacheLookup (c : CapCache) (id : String) : Option APICapability := c id

/-- `cache[id] = cap`. -/
def cacheInsert (c : CapCache) (id : String) (cap : APICapability) : CapCache :=
  fun k => if k = id then some cap else c k

/-- `del cache[id]` (a no-op when absent, matching the guarded deletes). -/
def cacheErase (c : CapCache) (id : String) : CapCache :=
  fun k => if k = id then Option.none else c k

/-- State of a `UniversalMCPAdapter` instance: the capability cache and the
constructor configuration.  The `asyncio.Lock` only serialises cache access;
the verified properties are stated over the sequential executions it
enforces. -/
structure UniversalState where
  capability_cache : CapCache
  cache_ttl : Nat
  enable_auto_fallback : Bool

/-- A probe (`test_function()`) either raises (carrying `str(e)`) or returns
a response value. -/
def ProbeOutcome : Type := Except String PyVal

/-- Outcomes of the injected `call_function` on the two request shapes the
orchestrator can send (native tools parameter vs. enhanced prompt). -/
structure CallBehavior where
  native : Except String PyVal
  textual : Except String PyVal

/-- `UniversalMCPAdapter._get_cached_capability`: return a non-expired
record; delete and miss when `now - tested_at > ttl`. -/
def getCachedCapability (st : UniversalState) (id : String) (now : Nat) :
    Option APICapability × UniversalState :=
  match cacheLookup st.capability_cache id with
  | Option.none => (Option.none, st)
  | some cap =>
      if st.cache_ttl < now - cap.tested_at then
        (Option.none, { st with capability_cache := cacheErase st.capability_cache id })
      else (some cap, st)

/-- `UniversalMCPAdapter._detect_capability`: run the probe, classify the
response, and cache the result; a raising probe is cached as
`supports_function_calling=False` with the stringified error. -/
def detectCapability (st : UniversalState) (id : String) (probe : ProbeOutcome)
    (now dur : Nat) : APICapability × UniversalState :=
  match probe with
  | .ok r =>
      let cap : APICapability :=
        { supports_function_calling := isFunctionCallingResponse r
          tested_at := now, test_duration_ms := dur, error_message := Option.none }
      (cap, { st with capability_cache := cacheInsert st.capability_cache id cap })
  | .error e =>
      let cap : APICapability :=
        { supports_function_calling := false
          tested_at := now, test_duration_ms := dur, error_message := some e }
      (cap, { st with capability_cache := cacheInsert st.capability_cache id cap })

/-- `UniversalMCPAdapter.get_adapter`: cached record first, else a probe
when a test function was supplied, else the prompt-injection default.  The
returned flag records whether the probe ran. -/
def getAdapterStep (st : UniversalState) (id : String) (test : Option ProbeOutcome)
    (now dur : Nat) : AdapterType × UniversalState × Bool :=
  let looked := getCachedCapability st id now
  match looked.1 with
  | some cap =>
      (if cap.supports_function_calling then .FUNCTION_CALLING else .PROMPT_INJECTION,
       looked.2, false)
  | Option.none =>
      match test with
      | some probe =>
          let detected := detectCapability looked.2 id probe now dur
          (if detected.1.supports_function_calling then .FUNCTION_CALLING
           else .PROMPT_INJECTION, detected.2, true)
      | Option.none => (.PROMPT_INJECTION, looked.2, false)

/-- Per-call observations: which endpoint, whether the probe ran, which
strategy produced the returned result, and whether an automatic degrade
happened. -/
structure StepLog where
  ident : String
  probed : Bool
  adapterUsed : AdapterType
  degraded : Bool
deriving DecidableEq, Repr

/-- `UniversalMCPAdapter.call_with_fallback`: resolve the adapter, run the
matching path; when the native path raises and auto-fallback is enabled,
overwrite the capability record with `supports_function_calling=False`
(`test_duration_ms=0`, the stringified error) and retry once on the
prompt-injection path, propagating any exception of the retry; otherwise
propagate the exception unchanged. -/
def callWithFallback (st : UniversalState) (id : String) (behavior : CallBehavior)
    (test : Option ProbeOutcome) (now dur : Nat) :
    Except String ToolCallResult × UniversalState × StepLog :=
  let resolved := getAdapterStep st id test now dur
  let adapter := resolved.1
  let st1 := resolved.2.1
  let probed := resolved.2.2
  if adapter.supports_native_tools then
    match behavior.native with
    | .ok r =>
        (.ok (FunctionCallingAdapter.parse_tool_calls r), st1,
         ⟨id, probed, .FUNCTION_CALLING, false⟩)
    | .error e =>
        if st1.enable_auto_fallback then
          let degradedCap : APICapability :=
            { supports_function_calling := false, tested_at := now
              test_duration_ms := 0, error_message := some e }
          let st2 := { st1 with
            capability_cache := cacheInsert st1.capability_cache id degradedCap }
          match behavior.textual with
          | .ok r =>
              (.ok (PromptInjectionAdapter.parse_tool_calls r), st2,
               ⟨id, probed, .PROMPT_INJECTION, true⟩)
          | .error e2 => (.error e2, st2, ⟨id, probed, .PROMPT_INJECTION, true⟩)
        else (.error e, st1, ⟨id, probed, .FUNCTION_CALLING, false⟩)
  else
    match behavior.textual with
    | .ok r =>
        (.ok (PromptInjectionAdapter.parse_tool_calls r), st1,
         ⟨id, probed, .PROMPT_INJECTION, false⟩)
    | .error e => (.error e, st1, ⟨id, probed, .PROMPT_INJECTION, false⟩)

/-- `UniversalMCPAdapter.clear_cache`: drop one endpoint's record or all. -/
def clearCache (st : UniversalState) (id : Option String) : UniversalState :=
  match id with
  | some i => { st with capability_cache := cacheErase st.capability_cache i }
  | Option.none => { st with capability_cache := fun _ => Option.none }

/-- One externally observable operation on the orchestrator, with the
environment-chosen outcomes and clock readings it consumes. -/
inductive MCPEvent : Type where
  | cwf (id : String) (behavior : CallBehavior) (test : Option ProbeOutcome)
      (now dur : Nat) : MCPEvent
  | ga (id : String) (test : Option ProbeOutcome) (now dur : Nat) : MCPEvent

/-- Clock reading of an event. -/
def MCPEvent.time : MCPEvent → Nat
  | .cwf _ _ _ now _ => now
  | .ga _ _ now _ => now

/-- Execute one event. -/
def stepEvent (st : UniversalState) : MCPEvent → UniversalState × StepLog
  | .cwf id behavior test now dur =>
      let r := callWithFallback st id behavior test now dur
      (r.2.1, r.2.2)
  | .ga id test now dur =>
      let r := getAdapterStep st id test now dur
      (r.2.1, ⟨id, r.2.2, r.1, false⟩)

/-- Execute a sequence of events, collecting the per-event logs. -/
def runEvents (st : UniversalState) : List MCPEvent → UniversalState × List StepLog
  | [] => (st, [])
  | e :: es =>
      let r := stepEvent st e
      let rest := runEvents r.1 es
      (rest.1, r.2 :: rest.2)

/-! ### Lemmas and verified properties -/

theorem cacheLookup_insert_self (c : CapCache) (id : String) (cap : APICapability) :
    cacheLookup (cacheInsert c id cap) id = some cap := by
  simp [cacheLookup, cacheInsert]

theorem cacheLookup_insert_ne (c : CapCache) (id k : String) (cap : APICapability)
    (h : k ≠ id) : cacheLookup (cacheInsert c id cap) k = cacheLookup c k := by
  simp [cacheLookup, cacheInsert, h]

theorem cacheLookup_erase_ne (c : CapCache) (id k : String) (h : k ≠ id) :
    cacheLookup (cacheErase c id) k = cacheLookup c k := by
  simp [cacheLookup, cacheErase, h]

/-- C6: the resilient decoder repairs `{"a": 1, "b": "x` — a string value
cut mid-token — to exactly `{"a": 1, "b": "x"}` (the unclosed string gets a
closing quote, the open brace its closer from the bracket stack), and the
repaired text parses as JSON. -/
theorem c6_truncation_repair :
    clean_json_response "\x7b\"a\": 1, \"b\": \"x" = "\x7b\"a\": 1, \"b\": \"x\"\x7d" ∧
    jsonValid "\x7b\"a\": 1, \"b\": \"x\"\x7d" = true := by
  exact ⟨rfl, rfl⟩

/-- A dict-shaped response whose `choices` list is empty: subscripting it
raises `IndexError` inside both parsers. -/
def emptyChoicesDict : PyVal := .pydict (.cons "choices" (.pylist .nil) .nil)

/-- C10: both `parse_tool_calls` implementations are total functions of the
response value; whenever the `try` body raises, the handler returns a result
with no invocations, `has_tool_calls=False` and `needs_continuation=False`
(the prompt-injection handler stores the current `ai_response` binding as
`raw_response`, the native handler `str(ai_response)`); in particular a dict
whose `choices` list is empty yields exactly that empty result. -/
theorem c10_parse_total :
    (∀ v e, piParseBody v = .error e →
       PromptInjectionAdapter.parse_tool_calls v =
         { tool_calls := .pylist .nil, raw_response := e.2
           has_tool_calls := false, needs_continuation := false }) ∧
    (∀ v e, fcParseBody v = .error e →
       FunctionCallingAdapter.parse_tool_calls v =
         { tool_calls := .pylist .nil, raw_response := .pystr (pyToStr v)
           has_tool_calls := false, needs_continuation := false }) ∧
    PromptInjectionAdapter.parse_tool_calls emptyChoicesDict =
      { tool_calls := .pylist .nil, raw_response := emptyChoicesDict
        has_tool_calls := false, needs_continuation := false } ∧
    FunctionCallingAdapter.parse_tool_calls emptyChoicesDict =
      { tool_calls := .pylist .nil, raw_response := .pystr (pyToStr emptyChoicesDict)
        has_tool_calls := false, needs_continuation := false } := by
  refine ⟨fun v e h => ?_, fun v e h => ?_, rfl, rfl⟩
  · simp [PromptInjectionAdapter.parse_tool_calls, h]
  · simp [FunctionCallingAdapter.parse_tool_calls, h]

/-- Witness for C10 at the empty-`choices` dict, where the body raises
`IndexError`. -/
theorem c10_parse_total_witness :
    PromptInjectionAdapter.parse_tool_calls emptyChoicesDict =
      { tool_calls := .pylist .nil, raw_response := emptyChoicesDict
        has_tool_calls := false, needs_continuation := false } ∧
    FunctionCallingAdapter.parse_tool_calls emptyChoicesDict =
      { tool_calls := .pylist .nil, raw_response := .pystr (pyToStr emptyChoicesDict)
        has_tool_calls := false, needs_continuation := false } :=
  ⟨c10_parse_total.1 emptyChoicesDict (.indexError, emptyChoicesDict) rfl,
   c10_parse_total.2.1 emptyChoicesDict .indexError rfl⟩

/-- The `<tool_call>` spans extracted from a response text (empty when the
outer `<tool_calls>` span is absent). -/
def piEntries (s : String) : List (List Char) :=
  match searchTagPair tagCallsOpen tagCallsClose s.data with
  | some (content, _) => findAllTagPairs (content.length + 1) tagCallOpen tagCallClose content
  | Option.none => []

/-- Well-formedness of one extracted `<tool_call>` span: both the
`<tool_name>` and `<arguments>` tags are found and the stripped arguments
body parses as JSON. -/
def piEntryOk (m : List Char) : Bool :=
  match searchTagPair tagNameOpen tagNameClose m,
        searchTagPair tagArgsOpen tagArgsClose m with
  | some _, some (argsC, _) => (jsonLoadsChars (pystripChars argsC)).isSome
  | _, _ => false

/-- The invocations that survive parsing: the well-formed entries, each
built from its 0-based position in the full extracted span list. -/
def piKept (s : String) : List PyVal :=
  (piEntries s).enum.filterMap fun p => piMkCall p.1 p.2

theorem piLoop_eq (ms : List (List Char)) : ∀ (i : Nat) (acc : List PyVal),
    piLoop ms i acc = acc ++ (List.enumFrom i ms).filterMap fun p => piMkCall p.1 p.2 := by
  induction ms with
  | nil => intro i acc; simp [piLoop]
  | cons m ms ih =>
      intro i acc
      rw [List.enumFrom]
      cases h : piMkCall i m with
      | some call => simp [piLoop, h, ih]
      | none => simp [piLoop, h, ih]

theorem piParseStr_characterization (s : String)
    (h : (searchTagPair tagCallsOpen tagCallsClose s.data).isSome = true) :
    piParseStr s =
      { tool_calls := .pylist (PyList.ofList (piKept s)), raw_response := .pystr s
        has_tool_calls := !(piKept s).isEmpty
        needs_continuation := !(piKept s).isEmpty } := by
  unfold piParseStr piKept piEntries
  cases hs : searchTagPair tagCallsOpen tagCallsClose s.data with
  | none => rw [hs] at h; simp at h
  | some pr =>
      obtain ⟨content, rest⟩ := pr
      simp only [hs]
      rw [piLoop_eq]
      simp [List.enum]

theorem piMkCall_isSome (i : Nat) (m : List Char) :
    (piMkCall i m).isSome = piEntryOk m := by
  unfold piMkCall piEntryOk
  cases h1 : searchTagPair tagNameOpen tagNameClose m with
  | none => simp
  | some p1 =>
      obtain ⟨nameC, r1⟩ := p1
      cases h2 : searchTagPair tagArgsOpen tagArgsClose m with
      | none => simp
      | some p2 =>
          obtain ⟨argsC, r2⟩ := p2
          cases h3 : jsonLoadsChars (pystripChars argsC) <;> simp [h3]

/-- The 2+1 response of the spec: two well-formed `<tool_call>` blocks and
one whose arguments body is not JSON. -/
def exC2 : String :=
  "<tool_calls><tool_call><tool_name>a</tool_name><arguments>\x7b\x7d</arguments></tool_call>" ++
  "<tool_call><tool_name>b</tool_name><arguments>\x7bbad</arguments></tool_call>" ++
  "<tool_call><tool_name>c</tool_name><arguments>\x7b\"x\": 1\x7d</arguments></tool_call></tool_calls>"

/-- C2: on any response text with a `<tool_calls>` span, the parser keeps
exactly the well-formed `<tool_call>` entries (both tags present, arguments
JSON-parseable), drops the malformed ones, and sets `has_tool_calls` (and
`needs_continuation`) iff at least one entry survives; the 2+1 response of
the spec yields exactly two invocations with `has_tool_calls=true`. -/
theorem c2_selective_parse (s : String)
    (h : (searchTagPair tagCallsOpen tagCallsClose s.data).isSome = true) :
    (PromptInjectionAdapter.parse_tool_calls (.pystr s) =
      { tool_calls := .pylist (PyList.ofList (piKept s)), raw_response := .pystr s
        has_tool_calls := !(piKept s).isEmpty
        needs_continuation := !(piKept s).isEmpty }) ∧
    (∀ i m, (piMkCall i m).isSome = piEntryOk m) ∧
    pyLen (PromptInjectionAdapter.parse_tool_calls (.pystr exC2)).tool_calls = .ok 2 ∧
    (PromptInjectionAdapter.parse_tool_calls (.pystr exC2)).has_tool_calls = true := by
  refine ⟨?_, piMkCall_isSome, rfl, rfl⟩
  show piParseStr s = _
  exact piParseStr_characterization s h

/-- Witness for C2 at the spec's 2+1 response. -/
theorem c2_selective_parse_witness :
    PromptInjectionAdapter.parse_tool_calls (.pystr exC2) =
      { tool_calls := .pylist (PyList.ofList (piKept exC2)), raw_response := .pystr exC2
        has_tool_calls := !(piKept exC2).isEmpty
        needs_continuation := !(piKept exC2).isEmpty } :=
  (c2_selective_parse exC2 rfl).1

/-- The `id` field of a normalized invocation mapping, as a string. -/
def callIdOf (v : PyVal) : Option String :=
  match v with
  | .pydict d =>
      match d.lookup "id" with
      | some (.pystr s) => some s
      | _ => Option.none
  | _ => Option.none

/-- First invocation of a result. -/
def firstToolCall (r : ToolCallResult) : Option PyVal :=
  match r.tool_calls with
  | .pylist (.cons h _) => some h
  | _ => Option.none

/-- A response whose first `<tool_call>` entry is malformed (no
`<tool_name>`) and whose second is well-formed. -/
def exC4 : String :=
  "<tool_calls><tool_call><arguments>\x7b\x7d</arguments></tool_call>" ++
  "<tool_call><tool_name>b</tool_name><arguments>\x7b\x7d</arguments></tool_call></tool_calls>"

/-- C4 fails on the code: with a malformed first entry and a well-formed
second one, the single surviving invocation — the 0th among survivors — is
assigned `call_1`, not `call_0`: the loop enumerates all extracted entries,
skipped ones included. -/
theorem c4_counterexample :
    pyLen (PromptInjectionAdapter.parse_tool_calls (.pystr exC4)).tool_calls = .ok 1 ∧
    ((firstToolCall (PromptInjectionAdapter.parse_tool_calls (.pystr exC4))).bind callIdOf)
      = some "call_1" ∧
    ("call_1" : String) ≠ "call_0" := by
  exact ⟨rfl, rfl, by decide⟩

/-- C4 amended: each surviving invocation's `id` is `call_{index}` where
`index` is the entry's 0-based position among **all** extracted
`<tool_call>` entries of the response (in document order, counting the
malformed entries that were skipped), not its position among the survivors. -/
theorem c4_call_index (s : String)
    (h : (searchTagPair tagCallsOpen tagCallsClose s.data).isSome = true) :
    (PromptInjectionAdapter.parse_tool_calls (.pystr s) =
      { tool_calls := .pylist (PyList.ofList (piKept s)), raw_response := .pystr s
        has_tool_calls := !(piKept s).isEmpty
        needs_continuation := !(piKept s).isEmpty }) ∧
    (∀ i m call, piMkCall i m = some call →
       callIdOf call = some ("call_" ++ toString i)) := by
  refine ⟨piParseStr_characterization s h, fun i m call hc => ?_⟩
  unfold piMkCall at hc
  cases h1 : searchTagPair tagNameOpen tagNameClose m with
  | none => rw [h1] at hc; exact absurd hc (by simp)
  | some p1 =>
      obtain ⟨nameC, r1⟩ := p1
      cases h2 : searchTagPair tagArgsOpen tagArgsClose m with
      | none => rw [h1, h2] at hc; exact absurd hc (by simp)
      | some p2 =>
          obtain ⟨argsC, r2⟩ := p2
          rw [h1, h2] at hc
          cases h3 : jsonLoadsChars (pystripChars argsC) with
          | none => simp [h3] at hc
          | some j =>
              simp [h3] at hc
              subst hc
              simp [callIdOf, PyFields.lookup]

/-- Witness for the amended C4 at a response whose malformed first entry is
skipped. -/
theorem c4_call_index_witness :
    PromptInjectionAdapter.parse_tool_calls (.pystr exC4) =
      { tool_calls := .pylist (PyList.ofList (piKept exC4)), raw_response := .pystr exC4
        has_tool_calls := !(piKept exC4).isEmpty
        needs_continuation := !(piKept exC4).isEmpty } :=
  (c4_call_index exC4 rfl).1


theorem exceptBindOk {α β ε : Type} (x : α) (f : α → Except ε β) :
    (Except.ok x : Except ε α) >>= f = f x := rfl

/-- String discriminator. -/
def pyIsStr (v : PyVal) : Bool :=
  match v with
  | .pystr _ => true
  | _ => false

/-- Dict discriminator. -/
def pyIsDict (v : PyVal) : Bool :=
  match v with
  | .pydict _ => true
  | _ => false

/-- The `function.arguments` field of an invocation mapping. -/
def callArgsOf (v : PyVal) : Option PyVal :=
  match v with
  | .pydict d =>
      match d.lookup "function" with
      | some (.pydict fd) => fd.lookup "arguments"
      | _ => Option.none
  | _ => Option.none

/-- One tool-call entry of a dict-shaped response whose `arguments` is a raw
mapping (`{}`), not a JSON-encoded string. -/
def exC5call : PyVal :=
  .pydict (.cons "id" (.pystr "x") (.cons "type" (.pystr "function")
    (.cons "function" (.pydict (.cons "name" (.pystr "f")
      (.cons "arguments" (.pydict .nil) .nil))) .nil)))

/-- A dict-shaped (`choices[0].message`) response carrying `exC5call`. -/
def exC5 : PyVal :=
  .pydict (.cons "choices" (.pylist (.cons (.pydict (.cons "message" (.pydict
    (.cons "tool_calls" (.pylist (.cons exC5call .nil))
      (.cons "content" (.pystr "hi") .nil))) .nil)) .nil)) .nil)

/-- C5 fails on the code: a dict-shaped response whose single call carries a
raw mapping in `function.arguments` is returned with that mapping untouched —
the surviving invocation's `arguments` is a dict, not a JSON-encoded string. -/
theorem c5_counterexample :
    (FunctionCallingAdapter.parse_tool_calls exC5).has_tool_calls = true ∧
    ((firstToolCall (FunctionCallingAdapter.parse_tool_calls exC5)).bind callArgsOf).map
      pyIsStr = some false ∧
    ((firstToolCall (FunctionCallingAdapter.parse_tool_calls exC5)).bind callArgsOf).map
      pyIsDict = some true := by
  exact ⟨rfl, rfl, rfl⟩

/-- C5 amended: the native parser does not re-encode anything.  In the
dict shape the message's `tool_calls` value is returned verbatim; in the
object shape each call is converted to `{id, type, function: {name,
arguments}}` with all five values copied unchanged from the response object.
`arguments` is therefore a JSON-encoded string only when the raw response
already held one, not by construction. -/
theorem c5_no_reencode :
    (∀ d choices first message tcs ct n,
       pyDictGet (.pydict d) "choices" (.pylist (.cons (.pydict .nil) .nil)) = .ok choices →
       pyIndex0 choices = .ok first →
       pyDictGet first "message" (.pydict .nil) = .ok message →
       pyDictGet message "tool_calls" (.pylist .nil) = .ok tcs →
       pyDictGet message "content" (.pystr "") = .ok ct →
       pyLen tcs = .ok n →
       FunctionCallingAdapter.parse_tool_calls (.pydict d) =
         { tool_calls := tcs, raw_response := if pyTruthy ct then ct else .pystr ""
           has_tool_calls := decide (0 < n), needs_continuation := decide (0 < n) }) ∧
    (∀ tc i ty fn nm ar,
       pyGetAttr tc "id" = .ok i → pyGetAttr tc "type" = .ok ty →
       pyGetAttr tc "function" = .ok fn → pyGetAttr fn "name" = .ok nm →
       pyGetAttr fn "arguments" = .ok ar →
       fcConvert tc = .ok (.pydict (.cons "id" i (.cons "type" ty
         (.cons "function" (.pydict (.cons "name" nm
           (.cons "arguments" ar .nil))) .nil))))) ∧
    (∀ attrs choices first message items mapped n,
       pyHasAttr (.pyobj attrs) "choices" = true →
       pyGetAttr (.pyobj attrs) "choices" = .ok choices →
       pyIndex0 choices = .ok first →
       pyGetAttr first "message" = .ok message →
       pyTruthy (pyGetAttrD message "tool_calls" .pynone) = true →
       pyIter (pyGetAttrD message "tool_calls" .pynone) = .ok items →
       items.mapM fcConvert = .ok mapped →
       pyLen (.pylist (PyList.ofList mapped)) = .ok n →
       FunctionCallingAdapter.parse_tool_calls (.pyobj attrs) =
         { tool_calls := .pylist (PyList.ofList mapped)
           raw_response :=
             if pyTruthy (pyGetAttrD message "content" (.pystr "")) then
               pyGetAttrD message "content" (.pystr "")
             else .pystr ""
           has_tool_calls := decide (0 < n), needs_continuation := decide (0 < n) }) := by
  refine ⟨fun d choices first message tcs ct n h1 h2 h3 h4 h5 h6 => ?_,
          fun tc i ty fn nm ar h1 h2 h3 h4 h5 => ?_,
          fun attrs choices first message items mapped n h0 h1 h2 h3 h5 h6 h7 h8 => ?_⟩
  · unfold FunctionCallingAdapter.parse_tool_calls fcParseBody
    simp only [h1, h2, h3, h4, h5, h6, exceptBindOk, Except.map_ok]
    rfl
  · unfold fcConvert
    simp only [h1, h2, h3, h4, h5, exceptBindOk, Except.map_ok]
    rfl
  · unfold FunctionCallingAdapter.parse_tool_calls fcParseBody
    simp only [h0, h1, h2, h3, h5, h6, h7, h8, exceptBindOk, Except.map_ok, if_true, ite_true]
    by_cases hc : pyTruthy (pyGetAttrD message "content" (.pystr "")) = true
    · simp only [hc, ite_true]
      simp only [pure, Except.pure, exceptBindOk, h8, Except.map_ok]
      try rfl
    · simp only [hc, ite_false]
      simp only [pure, Except.pure, exceptBindOk, h8, Except.map_ok]
      try rfl

/-- Witness for the amended C5: the dict-shaped response `exC5` is passed
through verbatim (its raw-mapping `arguments` included). -/
theorem c5_no_reencode_witness :
    FunctionCallingAdapter.parse_tool_calls exC5 =
      { tool_calls := .pylist (.cons exC5call .nil), raw_response := .pystr "hi"
        has_tool_calls := true, needs_continuation := true } := by
  exact c5_no_reencode.1 (.cons "choices" (.pylist (.cons (.pydict (.cons "message" (.pydict
    (.cons "tool_calls" (.pylist (.cons exC5call .nil))
      (.cons "content" (.pystr "hi") .nil))) .nil)) .nil)) .nil)
    _ _ _ _ _ 1 rfl rfl rfl rfl rfl rfl

theorem cacheLookup_insert_ttl (c : CapCache) (ttl : Nat) (b : Bool)
    (id : String) (cap : APICapability) :
    ({ capability_cache := cacheInsert c id cap, cache_ttl := ttl,
       enable_auto_fallback := b : UniversalState }).cache_ttl = ttl := rfl

theorem cacheLookup_erase_self (c : CapCache) (id : String) :
    cacheLookup (cacheErase c id) id = Option.none := by
  simp [cacheLookup, cacheErase]

/-- The capability record a probe outcome gets cached as. -/
def probeCap (po : ProbeOutcome) (t dur : Nat) : APICapability :=
  { supports_function_calling :=
      match po with
      | .ok r => isFunctionCallingResponse r
      | .error _ => false
    tested_at := t, test_duration_ms := dur
    error_message :=
      match po with
      | .ok _ => Option.none
      | .error e => some e }

/-- The strategy selected for a capability record. -/
def adapterFor (cap : APICapability) : AdapterType :=
  if cap.supports_function_calling then .FUNCTION_CALLING else .PROMPT_INJECTION

theorem getAdapterStep_hit (st : UniversalState) (id : String)
    (test : Option ProbeOutcome) (t dur : Nat) (cap : APICapability)
    (h : cacheLookup st.capability_cache id = some cap)
    (hfr : ¬ st.cache_ttl < t - cap.tested_at) :
    getAdapterStep st id test t dur = (adapterFor cap, st, false) := by
  unfold getAdapterStep getCachedCapability adapterFor
  simp [h, hfr]

theorem getAdapterStep_miss_probe (st : UniversalState) (id : String)
    (po : ProbeOutcome) (t dur : Nat)
    (h : cacheLookup st.capability_cache id = Option.none) :
    getAdapterStep st id (some po) t dur =
      (adapterFor (probeCap po t dur),
       { st with capability_cache :=
           cacheInsert st.capability_cache id (probeCap po t dur) }, true) := by
  unfold getAdapterStep getCachedCapability detectCapability adapterFor probeCap
  cases po <;> simp [h]

theorem getAdapterStep_expired_probe (st : UniversalState) (id : String)
    (po : ProbeOutcome) (t dur : Nat) (cap : APICapability)
    (h : cacheLookup st.capability_cache id = some cap)
    (hexp : st.cache_ttl < t - cap.tested_at) :
    getAdapterStep st id (some po) t dur =
      (adapterFor (probeCap po t dur),
       { st with capability_cache :=
           cacheInsert (cacheErase st.capability_cache id) id (probeCap po t dur) }, true) := by
  unfold getAdapterStep getCachedCapability detectCapability adapterFor probeCap
  cases po <;> simp [h, hexp]

/-- C8: two successive `get_adapter` calls for the same endpoint id, each
with a probe supplied, the second within the TTL of the first, run the probe
at most once; when the first call probed, the second is answered from the
record it wrote: same adapter, unchanged state, no probe. -/
theorem c8_cache_reuse (st : UniversalState) (id : String) (po1 po2 : ProbeOutcome)
    (t1 t2 dur1 dur2 : Nat) (htime : t2 - t1 ≤ st.cache_ttl) :
    ¬((getAdapterStep st id (some po1) t1 dur1).2.2 = true ∧
      (getAdapterStep (getAdapterStep st id (some po1) t1 dur1).2.1 id
        (some po2) t2 dur2).2.2 = true) ∧
    ((getAdapterStep st id (some po1) t1 dur1).2.2 = true →
      getAdapterStep (getAdapterStep st id (some po1) t1 dur1).2.1 id (some po2) t2 dur2 =
        ((getAdapterStep st id (some po1) t1 dur1).1,
         (getAdapterStep st id (some po1) t1 dur1).2.1, false)) := by
  cases hL : cacheLookup st.capability_cache id with
  | none =>
      rw [getAdapterStep_miss_probe st id po1 t1 dur1 hL]
      have h2 := getAdapterStep_hit
        { st with capability_cache := cacheInsert st.capability_cache id (probeCap po1 t1 dur1) }
        id (some po2) t2 dur2 (probeCap po1 t1 dur1)
        (cacheLookup_insert_self st.capability_cache id (probeCap po1 t1 dur1))
        (by simpa [probeCap] using Nat.not_lt.mpr htime)
      rw [h2]
      simp
  | some cap0 =>
      by_cases hexp : st.cache_ttl < t1 - cap0.tested_at
      · rw [getAdapterStep_expired_probe st id po1 t1 dur1 cap0 hL hexp]
        have h2 := getAdapterStep_hit
          { st with capability_cache :=
              cacheInsert (cacheErase st.capability_cache id) id (probeCap po1 t1 dur1) }
          id (some po2) t2 dur2 (probeCap po1 t1 dur1)
          (cacheLookup_insert_self _ id (probeCap po1 t1 dur1))
          (by simpa [probeCap] using Nat.not_lt.mpr htime)
        rw [h2]
        simp
      · rw [getAdapterStep_hit st id (some po1) t1 dur1 cap0 hL hexp]
        simp

/-- A concrete orchestrator state: empty cache, TTL 10, auto-fallback on
(the constructor defaults, with abstract time units). -/
def st0 : UniversalState :=
  { capability_cache := fun _ => Option.none, cache_ttl := 10
    enable_auto_fallback := true }

/-- Witness for C8: a failing probe at time 0, a second lookup at time 1. -/
theorem c8_cache_reuse_witness :
    ¬((getAdapterStep st0 "api" (some (Except.error "boom")) 0 1).2.2 = true ∧
      (getAdapterStep (getAdapterStep st0 "api" (some (Except.error "boom")) 0 1).2.1 "api"
        (some (Except.error "x")) 1 1).2.2 = true) ∧
    ((getAdapterStep st0 "api" (some (Except.error "boom")) 0 1).2.2 = true →
      getAdapterStep (getAdapterStep st0 "api" (some (Except.error "boom")) 0 1).2.1 "api"
          (some (Except.error "x")) 1 1 =
        ((getAdapterStep st0 "api" (some (Except.error "boom")) 0 1).1,
         (getAdapterStep st0 "api" (some (Except.error "boom")) 0 1).2.1, false)) :=
  c8_cache_reuse st0 "api" (Except.error "boom") (Except.error "x") 0 1 1 1 (by decide)


theorem getAdapterStep_preserves_other (st : UniversalState) (id : String)
    (test : Option ProbeOutcome) (t dur : Nat) (idq : String) (hq : idq ≠ id) :
    cacheLookup (getAdapterStep st id test t dur).2.1.capability_cache idq =
      cacheLookup st.capability_cache idq := by
  unfold getAdapterStep getCachedCapability detectCapability
  cases hL : cacheLookup st.capability_cache id with
  | none =>
      cases test with
      | none => simp [hL]
      | some po => cases po <;> simp [hL, cacheLookup_insert_ne _ _ _ _ hq]
  | some cap0 =>
      by_cases hexp : st.cache_ttl < t - cap0.tested_at
      · cases test with
        | none => simp [hL, hexp, cacheLookup_erase_ne _ _ _ hq]
        | some po =>
            cases po <;>
              simp [hL, hexp, cacheLookup_insert_ne _ _ _ _ hq,
                cacheLookup_erase_ne _ _ _ hq]
      · simp [hL, hexp]

theorem getAdapterStep_own_cases (st : UniversalState) (id : String)
    (test : Option ProbeOutcome) (t dur : Nat) :
    (getAdapterStep st id test t dur).2.2 = true ∨
    cacheLookup (getAdapterStep st id test t dur).2.1.capability_cache id =
      cacheLookup st.capability_cache id ∨
    cacheLookup (getAdapterStep st id test t dur).2.1.capability_cache id =
      Option.none := by
  unfold getAdapterStep getCachedCapability detectCapability
  cases hL : cacheLookup st.capability_cache id with
  | none =>
      cases test with
      | none => simp [hL]
      | some po => cases po <;> simp [hL]
  | some cap0 =>
      by_cases hexp : st.cache_ttl < t - cap0.tested_at
      · cases test with
        | none => simp [hL, hexp, cacheLookup_erase_self]
        | some po => cases po <;> simp [hL, hexp]
      · simp [hL, hexp]

theorem getAdapterStep_narrow (st : UniversalState) (id : String)
    (test : Option ProbeOutcome) (t dur : Nat) (idq : String) (cap : APICapability)
    (h : cacheLookup (getAdapterStep st id test t dur).2.1.capability_cache idq = some cap) :
    cacheLookup st.capability_cache idq = some cap ∨
    ((getAdapterStep st id test t dur).2.2 = true ∧ idq = id) := by
  by_cases hq : idq = id
  · subst hq
    rcases getAdapterStep_own_cases st idq test t dur with hp | hkeep | hnone
    · exact Or.inr ⟨hp, rfl⟩
    · rw [hkeep] at h
      exact Or.inl h
    · rw [hnone] at h
      exact absurd h (by simp)
  · rw [getAdapterStep_preserves_other st id test t dur idq hq] at h
    exact Or.inl h

theorem cwf_log_ident (st : UniversalState) (id : String) (behavior : CallBehavior)
    (test : Option ProbeOutcome) (now dur : Nat) :
    (callWithFallback st id behavior test now dur).2.2.ident = id := by
  rcases hga : getAdapterStep st id test now dur with ⟨A, stG, p⟩
  unfold callWithFallback
  rw [hga]
  cases hn : behavior.native <;> cases ht : behavior.textual <;>
    by_cases hA : A.supports_native_tools = true <;>
    by_cases hf : stG.enable_auto_fallback = true <;>
      simp [hA, hf, hn, ht]

theorem cwf_log_probed (st : UniversalState) (id : String) (behavior : CallBehavior)
    (test : Option ProbeOutcome) (now dur : Nat) :
    (callWithFallback st id behavior test now dur).2.2.probed =
      (getAdapterStep st id test now dur).2.2 := by
  rcases hga : getAdapterStep st id test now dur with ⟨A, stG, p⟩
  unfold callWithFallback
  rw [hga]
  cases hn : behavior.native <;> cases ht : behavior.textual <;>
    by_cases hA : A.supports_native_tools = true <;>
    by_cases hf : stG.enable_auto_fallback = true <;>
      simp [hA, hf, hn, ht]

/-- The adapter a `call_with_fallback` invocation reports having used is the
prompt-injection one whenever resolution selected it. -/
theorem cwf_log_adapter_pi (st : UniversalState) (id : String) (behavior : CallBehavior)
    (test : Option ProbeOutcome) (now dur : Nat)
    (hA : (getAdapterStep st id test now dur).1 = .PROMPT_INJECTION) :
    (callWithFallback st id behavior test now dur).2.2.adapterUsed = .PROMPT_INJECTION ∧
    (callWithFallback st id behavior test now dur).2.1 =
      (getAdapterStep st id test now dur).2.1 := by
  rcases hga : getAdapterStep st id test now dur with ⟨A, stG, p⟩
  rw [hga] at hA
  simp only [] at hA
  subst hA
  unfold callWithFallback
  rw [hga]
  cases ht : behavior.textual <;> simp [AdapterType.supports_native_tools, ht]

/-- The state after `call_with_fallback`: either exactly the state left by
adapter resolution (no degrade), or that state with the endpoint's record
overwritten by the degrade record
`supports_function_calling=False, tested_at=now, test_duration_ms=0`. -/
theorem cwf_state_cases (st : UniversalState) (id : String) (behavior : CallBehavior)
    (test : Option ProbeOutcome) (now dur : Nat) :
    ((callWithFallback st id behavior test now dur).2.1 =
        (getAdapterStep st id test now dur).2.1 ∧
      (callWithFallback st id behavior test now dur).2.2.degraded = false) ∨
    (∃ e, (callWithFallback st id behavior test now dur).2.1 =
        { (getAdapterStep st id test now dur).2.1 with
          capability_cache := cacheInsert
            (getAdapterStep st id test now dur).2.1.capability_cache id
            { supports_function_calling := false, tested_at := now
              test_duration_ms := 0, error_message := some e } } ∧
      (callWithFallback st id behavior test now dur).2.2.degraded = true) := by
  rcases hga : getAdapterStep st id test now dur with ⟨A, stG, p⟩
  unfold callWithFallback
  rw [hga]
  by_cases hA : A.supports_native_tools = true
  · cases hn : behavior.native with
    | ok r => exact Or.inl ⟨by simp [hA], by simp [hA]⟩
    | error e =>
        by_cases hf : stG.enable_auto_fallback = true
        · cases ht : behavior.textual with
          | ok r => exact Or.inr ⟨e, by simp [hA, hf], by simp [hA, hf]⟩
          | error e2 => exact Or.inr ⟨e, by simp [hA, hf], by simp [hA, hf]⟩
        · exact Or.inl ⟨by simp [hA, hf], by simp [hA, hf]⟩
  · cases ht : behavior.textual with
    | ok r => exact Or.inl ⟨by simp [hA], by simp [hA]⟩
    | error e => exact Or.inl ⟨by simp [hA], by simp [hA]⟩

/-- C7: transitions of the cached capability state only narrow, apart from a
fresh probe.  If after any operation an endpoint's record claims native
support, that record either pre-existed the operation or was written by the
probe the operation itself ran for that endpoint; and a degrade transition
always leaves `supports_function_calling=False` for its endpoint. -/
theorem c7_narrow_transitions (st : UniversalState) (ev : MCPEvent) (idq : String)
    (cap : APICapability)
    (h : cacheLookup (stepEvent st ev).1.capability_cache idq = some cap) :
    (cap.supports_function_calling = true →
       cacheLookup st.capability_cache idq = some cap ∨
       ((stepEvent st ev).2.probed = true ∧ (stepEvent st ev).2.ident = idq)) ∧
    ((stepEvent st ev).2.degraded = true → (stepEvent st ev).2.ident = idq →
       cap.supports_function_calling = false) := by
  cases ev with
  | ga id test now dur =>
      simp only [stepEvent] at h ⊢
      constructor
      · intro _
        rcases getAdapterStep_narrow st id test now dur idq cap h with hold | ⟨hp, hq⟩
        · exact Or.inl hold
        · exact Or.inr ⟨hp, hq.symm⟩
      · intro hd
        exact absurd hd (by simp)
  | cwf id behavior test now dur =>
      simp only [stepEvent] at h ⊢
      have hident := cwf_log_ident st id behavior test now dur
      have hprobed := cwf_log_probed st id behavior test now dur
      rcases cwf_state_cases st id behavior test now dur with ⟨hst, hdeg⟩ | ⟨e, hst, hdeg⟩
      · rw [hst] at h
        constructor
        · intro _
          rcases getAdapterStep_narrow st id test now dur idq cap h with hold | ⟨hp, hq⟩
          · exact Or.inl hold
          · refine Or.inr ⟨?_, ?_⟩
            · rw [hprobed]; exact hp
            · rw [hident]; exact hq.symm
        · intro hd
          rw [hdeg] at hd
          exact absurd hd (by simp)
      · rw [hst] at h
        by_cases hq : idq = id
        · subst hq
          rw [show cacheLookup
              ({ (getAdapterStep st idq test now dur).2.1 with
                 capability_cache := cacheInsert
                   (getAdapterStep st idq test now dur).2.1.capability_cache idq
                   { supports_function_calling := false, tested_at := now
                     test_duration_ms := 0, error_message := some e } }
                : UniversalState).capability_cache idq =
              some { supports_function_calling := false, tested_at := now
                     test_duration_ms := 0, error_message := some e } from
            cacheLookup_insert_self _ _ _] at h
          have hcap : cap = { supports_function_calling := false, tested_at := now
                              test_duration_ms := 0, error_message := some e } := by
            cases h; rfl
          constructor
          · intro hsup
            rw [hcap] at hsup
            exact absurd hsup (by simp)
          · intro _ _
            rw [hcap]
        · have hne : cacheLookup
              ({ (getAdapterStep st id test now dur).2.1 with
                 capability_cache := cacheInsert
                   (getAdapterStep st id test now dur).2.1.capability_cache id
                   { supports_function_calling := false, tested_at := now
                     test_duration_ms := 0, error_message := some e } }
                : UniversalState).capability_cache idq =
              cacheLookup (getAdapterStep st id test now dur).2.1.capability_cache idq :=
            cacheLookup_insert_ne _ _ _ _ hq
          rw [hne] at h
          constructor
          · intro _
            rcases getAdapterStep_narrow st id test now dur idq cap h with hold | ⟨hp, hq2⟩
            · exact Or.inl hold
            · refine Or.inr ⟨?_, ?_⟩
              · rw [hprobed]; exact hp
              · rw [hident]; exact hq2.symm
          · intro _ hid
            rw [hident] at hid
            exact absurd hid.symm hq

/-- A state caching native support for endpoint `"api"` at time 0. -/
def stC7 : UniversalState :=
  { capability_cache := fun k =>
      if k = "api" then
        some { supports_function_calling := true, tested_at := 0
               test_duration_ms := 0, error_message := Option.none }
      else Option.none
    cache_ttl := 10, enable_auto_fallback := true }

/-- Witness for C7 at a cache-hit `get_adapter` event. -/
theorem c7_narrow_transitions_witness :
    (({ supports_function_calling := true, tested_at := 0, test_duration_ms := 0
        error_message := Option.none } : APICapability).supports_function_calling = true →
       cacheLookup stC7.capability_cache "api" =
         some { supports_function_calling := true, tested_at := 0, test_duration_ms := 0
                error_message := Option.none } ∨
       ((stepEvent stC7 (.ga "api" Option.none 1 0)).2.probed = true ∧
        (stepEvent stC7 (.ga "api" Option.none 1 0)).2.ident = "api")) ∧
    ((stepEvent stC7 (.ga "api" Option.none 1 0)).2.degraded = true →
     (stepEvent stC7 (.ga "api" Option.none 1 0)).2.ident = "api" →
       ({ supports_function_calling := true, tested_at := 0, test_duration_ms := 0
          error_message := Option.none } : APICapability).supports_function_calling = false) :=
  c7_narrow_transitions stC7 (.ga "api" Option.none 1 0) "api"
    { supports_function_calling := true, tested_at := 0, test_duration_ms := 0
      error_message := Option.none } rfl

theorem getAdapterStep_config (st : UniversalState) (id : String)
    (test : Option ProbeOutcome) (t dur : Nat) :
    (getAdapterStep st id test t dur).2.1.cache_ttl = st.cache_ttl ∧
    (getAdapterStep st id test t dur).2.1.enable_auto_fallback =
      st.enable_auto_fallback := by
  unfold getAdapterStep getCachedCapability detectCapability
  cases hL : cacheLookup st.capability_cache id with
  | none =>
      cases test with
      | none => simp
      | some po => cases po <;> simp
  | some cap0 =>
      by_cases hexp : st.cache_ttl < t - cap0.tested_at
      · cases test with
        | none => simp [hL, hexp]
        | some po => cases po <;> simp [hL, hexp]
      · simp [hL, hexp]

theorem stepEvent_config (st : UniversalState) (ev : MCPEvent) :
    (stepEvent st ev).1.cache_ttl = st.cache_ttl ∧
    (stepEvent st ev).1.enable_auto_fallback = st.enable_auto_fallback := by
  cases ev with
  | ga id test now dur =>
      simp only [stepEvent]
      exact getAdapterStep_config st id test now dur
  | cwf id behavior test now dur =>
      simp only [stepEvent]
      rcases cwf_state_cases st id behavior test now dur with ⟨hst, _⟩ | ⟨e, hst, _⟩ <;>
        rw [hst] <;> simp [getAdapterStep_config st id test now dur]

/-- When adapter resolution selects the native strategy, the native call
raises and auto-fallback is enabled, `call_with_fallback` overwrites the
endpoint's record with the degrade record and reports the textual path. -/
theorem cwf_degrade (st : UniversalState) (id : String) (behavior : CallBehavior)
    (test : Option ProbeOutcome) (now dur : Nat) (e : String)
    (hA : (getAdapterStep st id test now dur).1 = .FUNCTION_CALLING)
    (hn : behavior.native = .error e)
    (hfb : st.enable_auto_fallback = true) :
    (callWithFallback st id behavior test now dur).2.1 =
      { (getAdapterStep st id test now dur).2.1 with
        capability_cache := cacheInsert
          (getAdapterStep st id test now dur).2.1.capability_cache id
          { supports_function_calling := false, tested_at := now
            test_duration_ms := 0, error_message := some e } } ∧
    (callWithFallback st id behavior test now dur).2.2.degraded = true ∧
    (callWithFallback st id behavior test now dur).2.2.adapterUsed =
      .PROMPT_INJECTION := by
  have hfb2 : (getAdapterStep st id test now dur).2.1.enable_auto_fallback = true := by
    rw [(getAdapterStep_config st id test now dur).2]; exact hfb
  rcases hga : getAdapterStep st id test now dur with ⟨A, stG, p⟩
  rw [hga] at hA
  simp only [] at hA
  subst hA
  rw [hga] at hfb2
  simp only [] at hfb2
  unfold callWithFallback
  rw [hga, hn]
  cases ht : behavior.textual <;>
    simp [AdapterType.supports_native_tools, hfb2, ht]

/-- One-step stickiness: with a fresh cached `supports_function_calling=False`
record for `id0`, any operation leaves that record in place, and any
operation on `id0` itself selects the prompt-injection strategy without
running a probe. -/
theorem sticky_step (st : UniversalState) (ev : MCPEvent) (id0 : String)
    (rec : APICapability)
    (hsup : rec.supports_function_calling = false)
    (hlook : cacheLookup st.capability_cache id0 = some rec)
    (htime : ¬ st.cache_ttl < ev.time - rec.tested_at) :
    cacheLookup (stepEvent st ev).1.capability_cache id0 = some rec ∧
    ((stepEvent st ev).2.ident = id0 →
      (stepEvent st ev).2.adapterUsed = .PROMPT_INJECTION ∧
      (stepEvent st ev).2.probed = false) := by
  cases ev with
  | ga id test now dur =>
      simp only [stepEvent]
      by_cases hq : id = id0
      · subst hq
        have hhit := getAdapterStep_hit st id test now dur rec hlook
          (by simpa [MCPEvent.time] using htime)
        rw [hhit]
        refine ⟨hlook, fun _ => ⟨?_, rfl⟩⟩
        show adapterFor rec = .PROMPT_INJECTION
        unfold adapterFor
        simp [hsup]
      · constructor
        · rw [getAdapterStep_preserves_other st id test now dur id0
            (fun hh => hq hh.symm)]
          exact hlook
        · intro hid
          exact absurd hid hq
  | cwf id behavior test now dur =>
      simp only [stepEvent]
      by_cases hq : id = id0
      · subst hq
        have hhit := getAdapterStep_hit st id test now dur rec hlook
          (by simpa [MCPEvent.time] using htime)
        have hPI : (getAdapterStep st id test now dur).1 = .PROMPT_INJECTION := by
          rw [hhit]
          show adapterFor rec = .PROMPT_INJECTION
          unfold adapterFor
          simp [hsup]
        have hpi := cwf_log_adapter_pi st id behavior test now dur hPI
        constructor
        · rw [hpi.2, hhit]
          exact hlook
        · intro _
          refine ⟨hpi.1, ?_⟩
          rw [cwf_log_probed st id behavior test now dur, hhit]
      · constructor
        · rcases cwf_state_cases st id behavior test now dur with ⟨hst, _⟩ | ⟨e, hst, _⟩
          · rw [hst, getAdapterStep_preserves_other st id test now dur id0
              (fun hh => hq hh.symm)]
            exact hlook
          · rw [hst]
            have h2 : cacheLookup
                (cacheInsert (getAdapterStep st id test now dur).2.1.capability_cache id
                  { supports_function_calling := false, tested_at := now
                    test_duration_ms := 0, error_message := some e }) id0 =
                cacheLookup (getAdapterStep st id test now dur).2.1.capability_cache id0 :=
              cacheLookup_insert_ne _ _ _ _ (fun hh => hq hh.symm)
            have h3 : cacheLookup
                (getAdapterStep st id test now dur).2.1.capability_cache id0 = some rec := by
              rw [getAdapterStep_preserves_other st id test now dur id0
                (fun hh => hq hh.symm)]
              exact hlook
            exact h2.trans h3
        · intro hid
          rw [cwf_log_ident st id behavior test now dur] at hid
          exact absurd hid hq

/-- Trace stickiness: the invariant of `sticky_step` carried along any event
sequence whose clock readings stay within the record's TTL. -/
theorem sticky_trace (evs : List MCPEvent) :
    ∀ (st : UniversalState) (id0 : String) (rec : APICapability),
      rec.supports_function_calling = false →
      cacheLookup st.capability_cache id0 = some rec →
      (∀ ev ∈ evs, ¬ st.cache_ttl < ev.time - rec.tested_at) →
      cacheLookup (runEvents st evs).1.capability_cache id0 = some rec ∧
      ∀ log ∈ (runEvents st evs).2, log.ident = id0 →
        log.adapterUsed = .PROMPT_INJECTION ∧ log.probed = false := by
  induction evs with
  | nil =>
      intro st id0 rec _ hlook _
      exact ⟨hlook, by simp [runEvents]⟩
  | cons e es ih =>
      intro st id0 rec hsup hlook htimes
      have hstep := sticky_step st e id0 rec hsup hlook (htimes e (by simp))
      have hconf := stepEvent_config st e
      have hrest := ih (stepEvent st e).1 id0 rec hsup hstep.1
        (fun ev hev => by rw [hconf.1]; exact htimes ev (by simp [hev]))
      simp only [runEvents]
      refine ⟨hrest.1, ?_⟩
      intro log hmem hid
      rw [List.mem_cons] at hmem
      rcases hmem with rfl | hmem
      · exact hstep.2 hid
      · exact hrest.2 log hmem hid

/-- C1: sticky degrade.  If resolution for an endpoint picks the native
strategy, the native call raises and auto-fallback is enabled, then
`call_with_fallback` overwrites the endpoint's capability record with
`supports_function_calling=False` (timestamped at this call, duration 0,
carrying the stringified error) and answers via the prompt-injection path;
and along any subsequent sequence of `call_with_fallback` / `get_adapter`
operations within the record's TTL (and with no cache clear), the record
stays in place and every operation for this endpoint selects the
prompt-injection strategy without ever invoking a probe. -/
theorem c1_sticky_degrade (st : UniversalState) (id0 : String) (behavior : CallBehavior)
    (test : Option ProbeOutcome) (t1 dur : Nat) (e : String) (evs : List MCPEvent)
    (hfb : st.enable_auto_fallback = true)
    (hA : (getAdapterStep st id0 test t1 dur).1 = .FUNCTION_CALLING)
    (hn : behavior.native = .error e)
    (htimes : ∀ ev ∈ evs, ¬ st.cache_ttl < ev.time - t1) :
    cacheLookup (callWithFallback st id0 behavior test t1 dur).2.1.capability_cache id0 =
      some { supports_function_calling := false, tested_at := t1
             test_duration_ms := 0, error_message := some e } ∧
    (callWithFallback st id0 behavior test t1 dur).2.2.adapterUsed = .PROMPT_INJECTION ∧
    cacheLookup (runEvents (callWithFallback st id0 behavior test t1 dur).2.1
        evs).1.capability_cache id0 =
      some { supports_function_calling := false, tested_at := t1
             test_duration_ms := 0, error_message := some e } ∧
    ∀ log ∈ (runEvents (callWithFallback st id0 behavior test t1 dur).2.1 evs).2,
      log.ident = id0 →
        log.adapterUsed = .PROMPT_INJECTION ∧ log.probed = false := by
  have hdeg := cwf_degrade st id0 behavior test t1 dur e hA hn hfb
  have hlook1 : cacheLookup
      (callWithFallback st id0 behavior test t1 dur).2.1.capability_cache id0 =
      some { supports_function_calling := false, tested_at := t1
             test_duration_ms := 0, error_message := some e } := by
    rw [hdeg.1]
    exact cacheLookup_insert_self _ _ _
  have httl : (callWithFallback st id0 behavior test t1 dur).2.1.cache_ttl =
      st.cache_ttl := by
    rw [hdeg.1]
    exact (getAdapterStep_config st id0 test t1 dur).1
  have htrace := sticky_trace evs (callWithFallback st id0 behavior test t1 dur).2.1
    id0 _ rfl hlook1 (fun ev hev => by rw [httl]; exact htimes ev hev)
  exact ⟨hlook1, hdeg.2.2, htrace.1, htrace.2⟩

/-- A native-path call whose invocation raises. -/
def behC1 : CallBehavior :=
  { native := Except.error "boom", textual := Except.ok (.pystr "hi") }

/-- One subsequent `call_with_fallback` for the same endpoint, within TTL. -/
def evsC1 : List MCPEvent :=
  [.cwf "api" { native := Except.error "x", textual := Except.ok (.pystr "ok") }
    Option.none 2 0]

/-- Witness for C1: endpoint `"api"` cached as native, the native call at
time 1 raises, one later call at time 2. -/
theorem c1_sticky_degrade_witness :
    cacheLookup (callWithFallback stC7 "api" behC1 Option.none 1 0).2.1.capability_cache
        "api" =
      some { supports_function_calling := false, tested_at := 1
             test_duration_ms := 0, error_message := some "boom" } ∧
    (callWithFallback stC7 "api" behC1 Option.none 1 0).2.2.adapterUsed =
      .PROMPT_INJECTION ∧
    cacheLookup (runEvents (callWithFallback stC7 "api" behC1 Option.none 1 0).2.1
        evsC1).1.capability_cache "api" =
      some { supports_function_calling := false, tested_at := 1
             test_duration_ms := 0, error_message := some "boom" } ∧
    ∀ log ∈ (runEvents (callWithFallback stC7 "api" behC1 Option.none 1 0).2.1 evsC1).2,
      log.ident = "api" →
        log.adapterUsed = .PROMPT_INJECTION ∧ log.probed = false :=
  c1_sticky_degrade stC7 "api" behC1 Option.none 1 0 "boom" evsC1 rfl rfl rfl
    (by intro ev hev; simp only [evsC1, List.mem_singleton] at hev; subst hev; decide)

theorem tryAggressiveFix_invalid (t : List Char)
    (h : (jsonLoadsChars (tryAggressiveFix t)).isSome = false) :
    tryAggressiveFix t = t := by
  by_cases h1 : (jsonLoadsChars (fixCommonErrors t)).isSome
  · have he : tryAggressiveFix t = fixCommonErrors t := by
      unfold tryAggressiveFix; simp [h1]
    rw [he] at h
    exact absurd h1 (by simp [h])
  · by_cases h2 : (jsonLoadsChars (fixTrailingContent t)).isSome
    · have he : tryAggressiveFix t = fixTrailingContent t := by
        unfold tryAggressiveFix; simp [h1, h2]
      rw [he] at h
      exact absurd h2 (by simp [h])
    · by_cases h3 : (jsonLoadsChars (fixMissingCommas t [] false Option.none)).isSome
      · have he : tryAggressiveFix t = fixMissingCommas t [] false Option.none := by
          unfold tryAggressiveFix; simp [h1, h2, h3]
        rw [he] at h
        exact absurd h3 (by simp [h])
      · cases h4 : extractValidJson t with
        | none => unfold tryAggressiveFix; simp [h1, h2, h3, h4]
        | some r4 =>
            by_cases h5 : (jsonLoadsChars r4).isSome
            · have he : tryAggressiveFix t = r4 := by
                unfold tryAggressiveFix; simp [h1, h2, h3, h4, h5]
              rw [he] at h
              exact absurd h5 (by simp [h])
            · unfold tryAggressiveFix; simp [h1, h2, h3, h4, h5]

theorem tryFixUnclosedJson_invalid (t stack : List Char) (inStr : Bool)
    (h : (jsonLoadsChars (tryFixUnclosedJson t stack inStr)).isSome = false) :
    tryFixUnclosedJson t stack inStr = t := by
  by_cases hf : (jsonLoadsChars
      (t ++ ((if inStr then ['"'] else []) ++
        stack.map fun b => if b = '{' then '}' else ']'))).isSome
  · have he : tryFixUnclosedJson t stack inStr =
        t ++ ((if inStr then ['"'] else []) ++
          stack.map fun b => if b = '{' then '}' else ']') := by
      unfold tryFixUnclosedJson; simp [hf, List.append_assoc]
    rw [he] at h
    exact absurd hf (by simp [h])
  · unfold tryFixUnclosedJson; simp [hf, List.append_assoc]

theorem cleanJsonChars_invalid (cs : List Char)
    (h : (jsonLoadsChars (cleanJsonChars cs)).isSome = false) :
    cleanJsonChars cs = cleanSlicedChars cs := by
  by_cases hcs : cs = []
  · subst hcs; rfl
  unfold cleanJsonChars at h ⊢
  unfold cleanSlicedChars
  rw [if_neg hcs] at h ⊢
  rw [if_neg hcs]
  by_cases hfast : (jsonLoadsChars (stripMarkdownFences cs)).isSome = true
  · rw [if_pos hfast] at h
    rw [hfast] at h
    exact Bool.noConfusion h
  · rw [if_neg hfast] at h ⊢
    rw [if_neg hfast]
    cases hdrop : dropToJsonStart (stripMarkdownFences cs) with
    | none => simp only [hdrop]
    | some sliced =>
        simp only [hdrop] at h ⊢
        cases hscan : (bracketScan sliced ⟨[], false, []⟩).1 with
        | some consumed =>
            simp only [hscan] at h ⊢
            by_cases hvalid : (jsonLoadsChars consumed).isSome = true
            · rw [if_pos hvalid] at h
              rw [hvalid] at h
              exact Bool.noConfusion h
            · rw [if_neg hvalid] at h ⊢
              exact tryAggressiveFix_invalid consumed h
        | none =>
            simp only [hscan] at h ⊢
            by_cases hstack : (bracketScan sliced ⟨[], false, []⟩).2.stack = []
            · have hres : (if (bracketScan sliced ⟨[], false, []⟩).2.stack ≠ [] then
                  tryFixUnclosedJson sliced (bracketScan sliced ⟨[], false, []⟩).2.stack
                    (bracketScan sliced ⟨[], false, []⟩).2.inStr
                else sliced) = sliced := if_neg (fun hne => hne hstack)
              rw [hres] at h ⊢
              by_cases hvalid : (jsonLoadsChars sliced).isSome = true
              · rw [if_pos hvalid] at h
                rw [hvalid] at h
                exact Bool.noConfusion h
              · rw [if_neg hvalid] at h ⊢
                exact tryAggressiveFix_invalid sliced h
            · have hres : (if (bracketScan sliced ⟨[], false, []⟩).2.stack ≠ [] then
                  tryFixUnclosedJson sliced (bracketScan sliced ⟨[], false, []⟩).2.stack
                    (bracketScan sliced ⟨[], false, []⟩).2.inStr
                else sliced) = tryFixUnclosedJson sliced
                  (bracketScan sliced ⟨[], false, []⟩).2.stack
                  (bracketScan sliced ⟨[], false, []⟩).2.inStr := if_pos hstack
              rw [hres] at h ⊢
              by_cases hvalid : (jsonLoadsChars (tryFixUnclosedJson sliced
                  (bracketScan sliced ⟨[], false, []⟩).2.stack
                  (bracketScan sliced ⟨[], false, []⟩).2.inStr)).isSome = true
              · rw [if_pos hvalid] at h
                rw [hvalid] at h
                exact Bool.noConfusion h
              · rw [if_neg hvalid] at h ⊢
                rw [tryAggressiveFix_invalid _ h]
                exact tryFixUnclosedJson_invalid _ _ _ (by simpa using hvalid)

/-- C9 fails as literally stated: when every repair fails the decoder
returns its *working* text, not the original input — a preamble before the
JSON start has already been cut away (and fences/whitespace stripped). -/
theorem c9_counterexample :
    jsonValid (clean_json_response "x\x7b\"a\"") = false ∧
    clean_json_response "x\x7b\"a\"" ≠ "x\x7b\"a\"" ∧
    clean_json_response "x\x7b\"a\"" = "\x7b\"a\"" := by
  refine ⟨rfl, ?_, rfl⟩
  decide

/-- C9 amended: on every input whose repairs all fail (equivalently, whose
final result is still invalid — each strategy's output is kept only when it
parses), `clean_json_response` returns, without raising, the still-invalid
working text: the input after markdown-fence stripping, `strip()`, and
slicing to the detected JSON span.  No partial repair is substituted, so the
caller's own `json.loads` raises a standard decode error on it. -/
theorem c9_returns_working_text (s : String)
    (h : jsonValid (clean_json_response s) = false) :
    clean_json_response s = String.mk (cleanSlicedChars s.data) ∧
    jsonValid (String.mk (cleanSlicedChars s.data)) = false := by
  have hchars : (jsonLoadsChars (cleanJsonChars s.data)).isSome = false := by
    simpa [jsonValid, json_loads, clean_json_response, jsonLoadsChars] using h
  have he := cleanJsonChars_invalid s.data hchars
  constructor
  · rw [clean_json_response, he]
  · rw [← he]
    simpa [jsonValid, json_loads, clean_json_response, jsonLoadsChars] using h

/-- Witness for the amended C9 at the preamble input `x{"a"`. -/
theorem c9_returns_working_text_witness :
    clean_json_response "x\x7b\"a\"" = String.mk (cleanSlicedChars "x\x7b\"a\"".data) ∧
    jsonValid (String.mk (cleanSlicedChars "x\x7b\"a\"".data)) = false :=
  c9_returns_working_text "x\x7b\"a\"" rfl

/-! ### Structure of `json.loads`-accepted text

For the markdown-fence claims we decompose every accepted input into string
literals (whose raw characters contain no newline, since the strict parser
rejects control characters) and inter-literal segments that contain no
backtick (no JSON token outside a string holds one).  The three fence
patterns all need either a backtick at a line start or a backtick run
followed by only whitespace up to a line end, and the decomposition rules
both out. -/

/-- A segment of an accepted JSON text: either backtick-free plain material
(punctuation, numbers, literals, whitespace) or a complete string literal
`"…"` whose raw content holds no newline. -/
inductive JSeg : Type where
  | plain (cs : List Char) : JSeg
  | strlit (content : List Char) : JSeg

/-- The characters of a segment. -/
def JSeg.render : JSeg → List Char
  | .plain cs => cs
  | .strlit c => '"' :: (c ++ ['"'])

/-- The well-formedness of a segment. -/
def JSeg.good : JSeg → Prop
  | .plain cs => '`' ∉ cs
  | .strlit c => '\n' ∉ c

/-- Concatenation of rendered segments. -/
def renderSegs : List JSeg → List Char
  | [] => []
  | s :: t => s.render ++ renderSegs t

/-- `l` consists of well-formed segments followed by the remainder `r`. -/
def Decomp (l r : List Char) : Prop :=
  ∃ segs : List JSeg, (∀ seg ∈ segs, seg.good) ∧ l = renderSegs segs ++ r

theorem decomp_refl (l : List Char) : Decomp l l :=
  ⟨[], by simp, by simp [renderSegs]⟩

theorem renderSegs_append (a b : List JSeg) :
    renderSegs (a ++ b) = renderSegs a ++ renderSegs b := by
  induction a with
  | nil => simp [renderSegs]
  | cons s t ih => simp [renderSegs, ih]

theorem decomp_trans {l m r : List Char} (h1 : Decomp l m) (h2 : Decomp m r) :
    Decomp l r := by
  obtain ⟨s1, g1, e1⟩ := h1
  obtain ⟨s2, g2, e2⟩ := h2
  refine ⟨s1 ++ s2, ?_, ?_⟩
  · intro seg hseg
    rw [List.mem_append] at hseg
    rcases hseg with hs | hs
    · exact g1 seg hs
    · exact g2 seg hs
  · rw [e1, e2, renderSegs_append, List.append_assoc]

theorem decomp_plain (p : List Char) (hp : '`' ∉ p) {l r : List Char}
    (h : Decomp l r) : Decomp (p ++ l) r := by
  obtain ⟨segs, g, e⟩ := h
  refine ⟨.plain p :: segs, ?_, ?_⟩
  · intro seg hseg
    rw [List.mem_cons] at hseg
    rcases hseg with rfl | hs
    · exact hp
    · exact g seg hs
  · rw [e, renderSegs, JSeg.render, List.append_assoc]

theorem decomp_plain_cons (c : Char) (hc : c ≠ '`') {l r : List Char}
    (h : Decomp l r) : Decomp (c :: l) r := by
  have := decomp_plain [c] (by simpa using fun hh => hc hh.symm) h
  simpa using this

theorem decomp_str (content : List Char) (hc : '\n' ∉ content) {l r : List Char}
    (h : Decomp l r) : Decomp ('"' :: content ++ '"' :: l) r := by
  obtain ⟨segs, g, e⟩ := h
  refine ⟨.strlit content :: segs, ?_, ?_⟩
  · intro seg hseg
    rw [List.mem_cons] at hseg
    rcases hseg with rfl | hs
    · exact hc
    · exact g seg hs
  · rw [e, renderSegs, JSeg.render]
    simp [List.append_assoc]

theorem jsonWs_ne_tick {c : Char} (h : jsonWs c = true) : c ≠ '`' := by
  intro hc
  subst hc
  exact absurd h (by decide)

theorem skipJsonWs_decomp (l : List Char) : Decomp l (skipJsonWs l) := by
  induction l with
  | nil => exact decomp_refl _
  | cons c r ih =>
      unfold skipJsonWs
      by_cases hc : jsonWs c = true
      · rw [if_pos hc]
        exact decomp_plain_cons c (jsonWs_ne_tick hc) ih
      · rw [if_neg hc]
        exact decomp_refl _

theorem digit_ne_tick {c : Char} (h1 : '0' ≤ c) (h2 : c ≤ '9') : c ≠ '`' := by
  intro hc
  subst hc
  exact absurd (And.intro h1 h2) (by decide)

theorem takeDigits_spec : ∀ l : List Char,
    l = (takeDigits l).1 ++ (takeDigits l).2 ∧
    ∀ c ∈ (takeDigits l).1, '0' ≤ c ∧ c ≤ '9' := by
  intro l
  induction l with
  | nil => simp [takeDigits]
  | cons c r ih =>
      unfold takeDigits
      by_cases hc : '0' ≤ c ∧ c ≤ '9'
      · rw [if_pos hc]
        refine ⟨?_, ?_⟩
        · simpa using ih.1
        · intro x hx
          simp only [List.mem_cons] at hx
          rcases hx with rfl | hx
          · exact hc
          · exact ih.2 x hx
      · rw [if_neg hc]
        simp

theorem takeDigits_no_tick (l : List Char) : '`' ∉ (takeDigits l).1 := by
  intro hmem
  have := (takeDigits_spec l).2 '`' hmem
  exact absurd this (by decide)

theorem jsonNumInt_spec {l d r : List Char} (h : jsonNumInt l = some (d, r)) :
    l = d ++ r ∧ '`' ∉ d := by
  unfold jsonNumInt at h
  split at h
  · simp only [Option.some.injEq, Prod.mk.injEq] at h
    obtain ⟨rfl, rfl⟩ := h
    exact ⟨rfl, by decide⟩
  · rename_i c r0 hguard
    split at h
    · rename_i hc
      simp only [Option.some.injEq, Prod.mk.injEq] at h
      obtain ⟨rfl, rfl⟩ := h
      constructor
      · simpa using (takeDigits_spec r0).1
      · intro hmem
        simp only [List.mem_cons] at hmem
        rcases hmem with heq | hmem
        · exact digit_ne_tick (le_trans (by decide) hc.1) hc.2 heq.symm
        · exact takeDigits_no_tick r0 hmem
    · exact absurd h (by simp)
  · exact absurd h (by simp)

theorem jsonNumFrac_spec : ∀ l : List Char,
    l = (jsonNumFrac l).1 ++ (jsonNumFrac l).2 ∧ '`' ∉ (jsonNumFrac l).1 := by
  intro l
  unfold jsonNumFrac
  split
  · rename_i r
    split
    · simp
    · rename_i d rest hd
      have hs := takeDigits_spec r
      rw [hd] at hs
      constructor
      · simpa using hs.1
      · intro hmem
        simp only [List.mem_cons] at hmem
        rcases hmem with heq | hmem
        · exact absurd heq (by decide)
        · have := hs.2 '`' (by simpa using hmem)
          exact absurd this (by decide)
  · simp

theorem jsonNumExp_spec : ∀ l : List Char,
    l = (jsonNumExp l).1 ++ (jsonNumExp l).2 ∧ '`' ∉ (jsonNumExp l).1 := by
  intro l
  unfold jsonNumExp
  split
  · rename_i c r
    split
    · rename_i hce
      split
      · rename_i s r2
        split
        · rename_i hs
          split
          · simp
          · rename_i d rest hd
            have hsp := takeDigits_spec r2
            rw [hd] at hsp
            refine ⟨by simp [hsp.1], ?_⟩
            intro hmem
            simp only [List.mem_cons] at hmem
            rcases hmem with heq | heq | hmem
            · rcases hce with hce | hce <;> (rw [← heq] at hce; exact absurd hce (by decide))
            · rcases hs with hs | hs <;> (rw [← heq] at hs; exact absurd hs (by decide))
            · have := hsp.2 '`' (by simpa using hmem)
              exact absurd this (by decide)
        · split
          · simp
          · rename_i d rest hd
            have hsp := takeDigits_spec (s :: r2)
            rw [hd] at hsp
            refine ⟨by simp [hsp.1], ?_⟩
            intro hmem
            simp only [List.mem_cons] at hmem
            rcases hmem with heq | hmem
            · rcases hce with hce | hce <;> (rw [← heq] at hce; exact absurd hce (by decide))
            · have := hsp.2 '`' (by simpa using hmem)
              exact absurd this (by decide)
      · simp
    · simp
  · simp

theorem jsonParseNum_spec {l lex r : List Char} (h : jsonParseNum l = some (lex, r)) :
    l = lex ++ r ∧ '`' ∉ lex := by
  unfold jsonParseNum at h
  split at h
  · rename_i r1
    cases hint : jsonNumInt r1 with
    | none => rw [hint] at h; exact absurd h (by simp)
    | some pr =>
        obtain ⟨d, rest⟩ := pr
        rw [hint] at h
        simp only [Option.some.injEq, Prod.mk.injEq] at h
        obtain ⟨rfl, rfl⟩ := h
        have hi := jsonNumInt_spec hint
        have hf := jsonNumFrac_spec rest
        have he := jsonNumExp_spec (jsonNumFrac rest).2
        have key : (d ++ (jsonNumFrac rest).1 ++ (jsonNumExp (jsonNumFrac rest).2).1) ++
            (jsonNumExp (jsonNumFrac rest).2).2 = d ++ rest := by
          rw [List.append_assoc, List.append_assoc, he.1.symm, hf.1.symm]
        constructor
        · rw [List.cons_append, key, hi.1]
        · intro hmem
          simp only [List.mem_cons, List.mem_append] at hmem
          rcases hmem with heq | (hm | hm) | hm
          · exact absurd heq (by decide)
          · exact hi.2 hm
          · exact hf.2 hm
          · exact he.2 hm
  · cases hint : jsonNumInt l with
    | none => rw [hint] at h; exact absurd h (by simp)
    | some pr =>
        obtain ⟨d, rest⟩ := pr
        rw [hint] at h
        simp only [Option.some.injEq, Prod.mk.injEq] at h
        obtain ⟨rfl, rfl⟩ := h
        have hi := jsonNumInt_spec hint
        have hf := jsonNumFrac_spec rest
        have he := jsonNumExp_spec (jsonNumFrac rest).2
        have key : (d ++ (jsonNumFrac rest).1 ++ (jsonNumExp (jsonNumFrac rest).2).1) ++
            (jsonNumExp (jsonNumFrac rest).2).2 = d ++ rest := by
          rw [List.append_assoc, List.append_assoc, he.1.symm, hf.1.symm]
        constructor
        · rw [key, hi.1]
        · intro hmem
          simp only [List.mem_append] at hmem
          rcases hmem with (hm | hm) | hm
          · exact hi.2 hm
          · exact hf.2 hm
          · exact he.2 hm

theorem hexDigitVal_ne_nl {c : Char} {n : Nat} (h : hexDigitVal c = some n) :
    c ≠ '\n' := by
  intro hc
  subst hc
  rw [show hexDigitVal '\n' = Option.none from rfl] at h
  exact Option.noConfusion h

theorem hex4Val_ne_nl {a b c d : Char} {n : Nat} (h : hex4Val a b c d = some n) :
    a ≠ '\n' ∧ b ≠ '\n' ∧ c ≠ '\n' ∧ d ≠ '\n' := by
  unfold hex4Val at h
  split at h
  · rename_i x y z w hx hy hz hw
    exact ⟨hexDigitVal_ne_nl hx, hexDigitVal_ne_nl hy,
           hexDigitVal_ne_nl hz, hexDigitVal_ne_nl hw⟩
  · exact absurd h (by simp)

theorem not_mem_cons1 {x a : Char} {l : List Char} (ha : x ≠ a) (hl : x ∉ l) :
    x ∉ a :: l := by
  intro hmem
  rw [List.mem_cons] at hmem
  rcases hmem with rfl | hm
  · exact ha rfl
  · exact hl hm

theorem not_mem_cons2 {x a b : Char} {l : List Char} (ha : x ≠ a) (hb : x ≠ b)
    (hl : x ∉ l) : x ∉ a :: b :: l :=
  not_mem_cons1 ha (not_mem_cons1 hb hl)

theorem strBody_decomp : ∀ (f : Nat) (l acc : List Char) (s : String) (r : List Char),
    jsonParseStrBody f l acc = some (s, r) →
    ∃ content, l = content ++ '"' :: r ∧ '\n' ∉ content := by
  intro f
  induction f with
  | zero =>
      intro l acc s r h
      exact absurd h (by simp [jsonParseStrBody])
  | succ f ih =>
      intro l acc s r h
      unfold jsonParseStrBody at h
      split at h
      · exact absurd h (by simp)
      · rename_i r1
        simp only [Option.some.injEq, Prod.mk.injEq] at h
        obtain ⟨-, rfl⟩ := h
        exact ⟨[], rfl, by simp⟩
      · rename_i e r1
        split at h
        · obtain ⟨content, hc, hnl⟩ := ih _ _ _ _ h
          exact ⟨'\\' :: '"' :: content, by simp [hc],
            not_mem_cons2 (by decide) (by decide) hnl⟩
        · obtain ⟨content, hc, hnl⟩ := ih _ _ _ _ h
          exact ⟨'\\' :: '\\' :: content, by simp [hc],
            not_mem_cons2 (by decide) (by decide) hnl⟩
        · obtain ⟨content, hc, hnl⟩ := ih _ _ _ _ h
          exact ⟨'\\' :: '/' :: content, by simp [hc],
            not_mem_cons2 (by decide) (by decide) hnl⟩
        · obtain ⟨content, hc, hnl⟩ := ih _ _ _ _ h
          exact ⟨'\\' :: 'b' :: content, by simp [hc],
            not_mem_cons2 (by decide) (by decide) hnl⟩
        · obtain ⟨content, hc, hnl⟩ := ih _ _ _ _ h
          exact ⟨'\\' :: 'f' :: content, by simp [hc],
            not_mem_cons2 (by decide) (by decide) hnl⟩
        · obtain ⟨content, hc, hnl⟩ := ih _ _ _ _ h
          exact ⟨'\\' :: 'n' :: content, by simp [hc],
            not_mem_cons2 (by decide) (by decide) hnl⟩
        · obtain ⟨content, hc, hnl⟩ := ih _ _ _ _ h
          exact ⟨'\\' :: 'r' :: content, by simp [hc],
            not_mem_cons2 (by decide) (by decide) hnl⟩
        · obtain ⟨content, hc, hnl⟩ := ih _ _ _ _ h
          exact ⟨'\\' :: 't' :: content, by simp [hc],
            not_mem_cons2 (by decide) (by decide) hnl⟩
        · -- the \uXXXX escape
          split at h
          · rename_i a b c d r2
            split at h
            · rename_i code hx
              have hhex := hex4Val_ne_nl hx
              split at h
              · -- high surrogate, look for a low surrogate pair
                split at h
                · rename_i a2 b2 c2 d2 r3
                  split at h
                  · rename_i code2 hx2
                    have hhex2 := hex4Val_ne_nl hx2
                    split at h
                    · obtain ⟨content, hc, hnl⟩ := ih _ _ _ _ h
                      refine ⟨'\\' :: 'u' :: a :: b :: c :: d ::
                        '\\' :: 'u' :: a2 :: b2 :: c2 :: d2 :: content,
                        by simp [hc], ?_⟩
                      exact not_mem_cons2 (by decide) (by decide)
                        (not_mem_cons2 (fun hh => hhex.1 hh.symm)
                          (fun hh => hhex.2.1 hh.symm)
                          (not_mem_cons2 (fun hh => hhex.2.2.1 hh.symm)
                            (fun hh => hhex.2.2.2 hh.symm)
                            (not_mem_cons2 (by decide) (by decide)
                              (not_mem_cons2 (fun hh => hhex2.1 hh.symm)
                                (fun hh => hhex2.2.1 hh.symm)
                                (not_mem_cons2 (fun hh => hhex2.2.2.1 hh.symm)
                                  (fun hh => hhex2.2.2.2 hh.symm) hnl)))))
                    · obtain ⟨content, hc, hnl⟩ := ih _ _ _ _ h
                      refine ⟨'\\' :: 'u' :: a :: b :: c :: d :: content,
                        by simp [hc], ?_⟩
                      exact not_mem_cons2 (by decide) (by decide)
                        (not_mem_cons2 (fun hh => hhex.1 hh.symm)
                          (fun hh => hhex.2.1 hh.symm)
                          (not_mem_cons2 (fun hh => hhex.2.2.1 hh.symm)
                            (fun hh => hhex.2.2.2 hh.symm) hnl))
                  · exact absurd h (by simp)
                · obtain ⟨content, hc, hnl⟩ := ih _ _ _ _ h
                  refine ⟨'\\' :: 'u' :: a :: b :: c :: d :: content,
                    by simp [hc], ?_⟩
                  exact not_mem_cons2 (by decide) (by decide)
                    (not_mem_cons2 (fun hh => hhex.1 hh.symm)
                      (fun hh => hhex.2.1 hh.symm)
                      (not_mem_cons2 (fun hh => hhex.2.2.1 hh.symm)
                        (fun hh => hhex.2.2.2 hh.symm) hnl))
              · obtain ⟨content, hc, hnl⟩ := ih _ _ _ _ h
                refine ⟨'\\' :: 'u' :: a :: b :: c :: d :: content,
                  by simp [hc], ?_⟩
                exact not_mem_cons2 (by decide) (by decide)
                  (not_mem_cons2 (fun hh => hhex.1 hh.symm)
                    (fun hh => hhex.2.1 hh.symm)
                    (not_mem_cons2 (fun hh => hhex.2.2.1 hh.symm)
                      (fun hh => hhex.2.2.2 hh.symm) hnl))
            · exact absurd h (by simp)
          · exact absurd h (by simp)
        · exact absurd h (by simp)
      · rename_i c r1 g1 g2
        split at h
        · exact absurd h (by simp)
        · rename_i hctl
          obtain ⟨content, hc, hnl⟩ := ih _ _ _ _ h
          refine ⟨c :: content, by simp [hc], ?_⟩
          refine not_mem_cons1 (fun hh => hctl ?_) hnl
          rw [← hh]
          decide

set_option maxHeartbeats 2000000 in
theorem parse_decomp : ∀ f : Nat,
    (∀ l v r, jsonParseVal f l = some (v, r) → Decomp l r) ∧
    (∀ l v r, jsonParseArr f l = some (v, r) → Decomp l r) ∧
    (∀ l a r, jsonParseArrItems f l = some (a, r) → Decomp l r) ∧
    (∀ l v r, jsonParseObj f l = some (v, r) → Decomp l r) ∧
    (∀ l o r, jsonParseObjItems f l = some (o, r) → Decomp l r) := by
  intro f
  induction f with
  | zero =>
      refine ⟨fun l v r h => ?_, fun l v r h => ?_, fun l a r h => ?_,
              fun l v r h => ?_, fun l o r h => ?_⟩
      · rw [show jsonParseVal 0 l = Option.none from rfl] at h
        exact Option.noConfusion h
      · rw [show jsonParseArr 0 l = Option.none from rfl] at h
        exact Option.noConfusion h
      · rw [show jsonParseArrItems 0 l = Option.none from rfl] at h
        exact Option.noConfusion h
      · rw [show jsonParseObj 0 l = Option.none from rfl] at h
        exact Option.noConfusion h
      · rw [show jsonParseObjItems 0 l = Option.none from rfl] at h
        exact Option.noConfusion h
  | succ f ih =>
      obtain ⟨ihv, iha, ihai, iho, ihoi⟩ := ih
      refine ⟨?_, ?_, ?_, ?_, ?_⟩
      · intro l v r h
        unfold jsonParseVal at h
        split at h
        · rename_i rs
          split at h
          · rename_i s rest hstr
            simp only [Option.some.injEq, Prod.mk.injEq] at h
            obtain ⟨-, rfl⟩ := h
            obtain ⟨content, hc, hnl⟩ := strBody_decomp f rs [] s rest hstr
            rw [hc]
            exact decomp_str content hnl (decomp_refl _)
          · exact absurd h (by simp)
        · rename_i rs
          exact decomp_plain_cons '{' (by decide)
            (decomp_trans (skipJsonWs_decomp rs) (iho _ _ _ h))
        · rename_i rs
          exact decomp_plain_cons '[' (by decide)
            (decomp_trans (skipJsonWs_decomp rs) (iha _ _ _ h))
        · split at h
          · rename_i hlit
            simp only [Option.some.injEq, Prod.mk.injEq] at h
            obtain ⟨-, rfl⟩ := h
            have hd : Decomp (List.take 4 l ++ List.drop 4 l) (List.drop 4 l) :=
              decomp_plain _ (by rw [hlit]; decide) (decomp_refl _)
            rw [List.take_append_drop] at hd
            exact hd
          · split at h
            · rename_i hlit
              simp only [Option.some.injEq, Prod.mk.injEq] at h
              obtain ⟨-, rfl⟩ := h
              have hd : Decomp (List.take 4 l ++ List.drop 4 l) (List.drop 4 l) :=
                decomp_plain _ (by rw [hlit]; decide) (decomp_refl _)
              rw [List.take_append_drop] at hd
              exact hd
            · split at h
              · rename_i hlit
                simp only [Option.some.injEq, Prod.mk.injEq] at h
                obtain ⟨-, rfl⟩ := h
                have hd : Decomp (List.take 5 l ++ List.drop 5 l) (List.drop 5 l) :=
                  decomp_plain _ (by rw [hlit]; decide) (decomp_refl _)
                rw [List.take_append_drop] at hd
                exact hd
              · split at h
                · rename_i hlit
                  simp only [Option.some.injEq, Prod.mk.injEq] at h
                  obtain ⟨-, rfl⟩ := h
                  have hd : Decomp (List.take 3 l ++ List.drop 3 l) (List.drop 3 l) :=
                    decomp_plain _ (by rw [hlit]; decide) (decomp_refl _)
                  rw [List.take_append_drop] at hd
                  exact hd
                · split at h
                  · rename_i hlit
                    simp only [Option.some.injEq, Prod.mk.injEq] at h
                    obtain ⟨-, rfl⟩ := h
                    have hd : Decomp (List.take 8 l ++ List.drop 8 l)
                        (List.drop 8 l) :=
                      decomp_plain _ (by rw [hlit]; decide) (decomp_refl _)
                    rw [List.take_append_drop] at hd
                    exact hd
                  · split at h
                    · rename_i hlit
                      simp only [Option.some.injEq, Prod.mk.injEq] at h
                      obtain ⟨-, rfl⟩ := h
                      have hd : Decomp (List.take 9 l ++ List.drop 9 l)
                          (List.drop 9 l) :=
                        decomp_plain _ (by rw [hlit]; decide) (decomp_refl _)
                      rw [List.take_append_drop] at hd
                      exact hd
                    · split at h
                      · rename_i lex rest hnum
                        simp only [Option.some.injEq, Prod.mk.injEq] at h
                        obtain ⟨-, rfl⟩ := h
                        have hs := jsonParseNum_spec hnum
                        rw [hs.1]
                        exact decomp_plain lex hs.2 (decomp_refl _)
                      · exact absurd h (by simp)
      · intro l v r h
        unfold jsonParseArr at h
        split at h
        · rename_i rs
          simp only [Option.some.injEq, Prod.mk.injEq] at h
          obtain ⟨-, rfl⟩ := h
          exact decomp_plain_cons ']' (by decide) (decomp_refl _)
        · split at h
          · rename_i a rest hitems
            simp only [Option.some.injEq, Prod.mk.injEq] at h
            obtain ⟨-, rfl⟩ := h
            exact ihai _ _ _ hitems
          · exact absurd h (by simp)
      · intro l a r h
        unfold jsonParseArrItems at h
        split at h
        · rename_i v rest hval
          have d1 : Decomp l rest := ihv _ _ _ hval
          split at h
          · rename_i r2 hskip
            split at h
            · rename_i tl rest2 hrec
              simp only [Option.some.injEq, Prod.mk.injEq] at h
              obtain ⟨-, rfl⟩ := h
              have d2 : Decomp rest (',' :: r2) := by
                have := skipJsonWs_decomp rest
                rw [hskip] at this
                exact this
              exact decomp_trans d1 (decomp_trans d2 (decomp_plain_cons ','
                (by decide) (decomp_trans (skipJsonWs_decomp r2) (ihai _ _ _ hrec))))
            · exact absurd h (by simp)
          · rename_i r2 hskip
            simp only [Option.some.injEq, Prod.mk.injEq] at h
            obtain ⟨-, rfl⟩ := h
            have d2 : Decomp rest (']' :: r2) := by
              have := skipJsonWs_decomp rest
              rw [hskip] at this
              exact this
            exact decomp_trans d1 (decomp_trans d2 (decomp_plain_cons ']'
              (by decide) (decomp_refl _)))
          · exact absurd h (by simp)
        · exact absurd h (by simp)
      · intro l v r h
        unfold jsonParseObj at h
        split at h
        · rename_i rs
          simp only [Option.some.injEq, Prod.mk.injEq] at h
          obtain ⟨-, rfl⟩ := h
          exact decomp_plain_cons '}' (by decide) (decomp_refl _)
        · split at h
          · rename_i o rest hitems
            simp only [Option.some.injEq, Prod.mk.injEq] at h
            obtain ⟨-, rfl⟩ := h
            exact ihoi _ _ _ hitems
          · exact absurd h (by simp)
      · intro l o r h
        unfold jsonParseObjItems at h
        split at h
        · rename_i rs
          split at h
          · rename_i k rest1 hkey
            obtain ⟨content, hc, hnl⟩ := strBody_decomp f rs [] k rest1 hkey
            split at h
            · rename_i r2 hskip
              split at h
              · rename_i v rest2 hval
                have d2 : Decomp rest1 (':' :: r2) := by
                  have := skipJsonWs_decomp rest1
                  rw [hskip] at this
                  exact this
                have dv : Decomp (skipJsonWs r2) rest2 := ihv _ _ _ hval
                split at h
                · rename_i r3 hskip2
                  split at h
                  · rename_i tl rest3 hrec
                    simp only [Option.some.injEq, Prod.mk.injEq] at h
                    obtain ⟨-, rfl⟩ := h
                    have d3 : Decomp rest2 (',' :: r3) := by
                      have := skipJsonWs_decomp rest2
                      rw [hskip2] at this
                      exact this
                    rw [hc]
                    exact decomp_str content hnl (decomp_trans d2
                      (decomp_plain_cons ':' (by decide)
                        (decomp_trans (skipJsonWs_decomp r2)
                          (decomp_trans dv (decomp_trans d3
                            (decomp_plain_cons ',' (by decide)
                              (decomp_trans (skipJsonWs_decomp r3)
                                (ihoi _ _ _ hrec))))))))
                  · exact absurd h (by simp)
                · rename_i r3 hskip2
                  simp only [Option.some.injEq, Prod.mk.injEq] at h
                  obtain ⟨-, rfl⟩ := h
                  have d3 : Decomp rest2 ('}' :: r3) := by
                    have := skipJsonWs_decomp rest2
                    rw [hskip2] at this
                    exact this
                  rw [hc]
                  exact decomp_str content hnl (decomp_trans d2
                    (decomp_plain_cons ':' (by decide)
                      (decomp_trans (skipJsonWs_decomp r2)
                        (decomp_trans dv (decomp_trans d3
                          (decomp_plain_cons '}' (by decide) (decomp_refl _)))))))
                · exact absurd h (by simp)
              · exact absurd h (by simp)
            · exact absurd h (by simp)
          · exact absurd h (by simp)
        · exact absurd h (by simp)

theorem jsonValid_decomp (s : String) (h : jsonValid s = true) :
    Decomp s.data [] := by
  unfold jsonValid json_loads jsonLoadsChars at h
  split at h
  · rename_i v rest hval
    split at h
    · rename_i hrest
      have d1 : Decomp s.data (skipJsonWs s.data) := skipJsonWs_decomp _
      have d2 : Decomp (skipJsonWs s.data) rest :=
        (parse_decomp (2 * s.data.length + 8)).1 _ _ _ hval
      have d3 : Decomp rest [] := by
        have hsw := skipJsonWs_decomp rest
        rw [hrest] at hsw
        exact hsw
      exact decomp_trans d1 (decomp_trans d2 d3)
    · exact absurd h (by simp)
  · exact absurd h (by simp)

theorem fence3At_eq_some {l r : List Char} (h : fence3At l = some r) :
    l = '`' :: '`' :: '`' :: r := by
  unfold fence3At at h
  split at h
  · rename_i r0
    simp only [Option.some.injEq] at h
    subst h
    rfl
  · exact absurd h (by simp)

theorem fence3At_ne {c : Char} (hc : c ≠ '`') (r : List Char) :
    fence3At (c :: r) = Option.none := by
  cases hf : fence3At (c :: r) with
  | none => rfl
  | some r' =>
      have heq := fence3At_eq_some hf
      injection heq with h1 _
      exact absurd h1 hc

theorem fenceJsonAt_ne {c : Char} (hc : c ≠ '`') (r : List Char) :
    fenceJsonAt (c :: r) = Option.none := by
  cases hf : fenceJsonAt (c :: r) with
  | none => rfl
  | some r' =>
      unfold fenceJsonAt at hf
      split at hf
      · rename_i c1 c2 c3 c4 rr heq
        injection heq with h1 _
        exact absurd h1 hc
      · exact absurd hf (by simp)

theorem suffixFromLastNl_none {l : List Char} (h : '\n' ∉ l) :
    suffixFromLastNl l = Option.none := by
  induction l with
  | nil => rfl
  | cons c r ih =>
      have hc : c ≠ '\n' := fun hh => h (by rw [hh]; exact List.mem_cons_self _ _)
      have hr : '\n' ∉ r := fun hh => h (List.mem_cons_of_mem _ hh)
      unfold suffixFromLastNl
      rw [ih hr]
      show (if c = '\n' then some (c :: r) else Option.none) = Option.none
      rw [if_neg hc]

theorem mem_takeWhile_mem {p : Char → Bool} :
    ∀ {l : List Char} {c : Char}, c ∈ List.takeWhile p l → c ∈ l := by
  intro l
  induction l with
  | nil => intro c hc; exact absurd hc (by simp)
  | cons d t ih =>
      intro c hc
      rw [List.takeWhile_cons] at hc
      by_cases hd : p d = true
      · rw [if_pos hd] at hc
        rcases List.mem_cons.mp hc with rfl | hc
        · exact List.mem_cons_self _ _
        · exact List.mem_cons_of_mem _ (ih hc)
      · rw [if_neg hd] at hc
        exact absurd hc (List.not_mem_nil c)

theorem takeWhile_append_quote (a r : List Char) :
    List.takeWhile pyIsSpace (a ++ '"' :: r) = List.takeWhile pyIsSpace a := by
  induction a with
  | nil =>
      rw [List.nil_append, List.takeWhile_cons]
      rw [show pyIsSpace '"' = false from rfl]
      rfl
  | cons c a' ih =>
      rw [List.cons_append, List.takeWhile_cons, List.takeWhile_cons]
      by_cases hc : pyIsSpace c = true
      · rw [if_pos hc, if_pos hc, ih]
      · rw [if_neg hc, if_neg hc]

theorem dropWhile_append_quote (a r : List Char) :
    List.dropWhile pyIsSpace (a ++ '"' :: r) ≠ [] := by
  induction a with
  | nil =>
      rw [List.nil_append, List.dropWhile_cons]
      rw [show pyIsSpace '"' = false from rfl]
      simp
  | cons c a' ih =>
      rw [List.cons_append, List.dropWhile_cons]
      by_cases hc : pyIsSpace c = true
      · rw [if_pos hc]; exact ih
      · rw [if_neg hc]; simp

theorem mdCloseTail_none {a : List Char} (ha : '\n' ∉ a) (r : List Char) :
    mdCloseTail (a ++ '"' :: r) = Option.none := by
  have hnl : '\n' ∉ List.takeWhile pyIsSpace (a ++ '"' :: r) := by
    rw [takeWhile_append_quote]
    intro hmem
    exact ha (mem_takeWhile_mem hmem)
  have hsuf := suffixFromLastNl_none hnl
  unfold mdCloseTail
  cases hd : List.dropWhile pyIsSpace (a ++ '"' :: r) with
  | nil => exact absurd hd (dropWhile_append_quote a r)
  | cons c0 r0 =>
      show (match suffixFromLastNl (List.takeWhile pyIsSpace (a ++ '"' :: r)) with
            | some suffix => some (suffix ++ (c0 :: r0))
            | Option.none => Option.none) = Option.none
      rw [hsuf]

theorem closeAttempt_plainchar {c : Char} (hcn : c ≠ '\n') (hct : c ≠ '`')
    (r : List Char) : closeAttempt c r = Option.none := by
  unfold closeAttempt
  rw [if_neg hcn, fence3At_ne hct r]

theorem closeAttempt_nl {r : List Char} (hr : headNotTick r) :
    closeAttempt '\n' r = Option.none := by
  unfold closeAttempt
  rw [if_pos rfl]
  cases r with
  | nil => rfl
  | cons c0 r0 => rw [fence3At_ne hr r0]

theorem closeAttempt_in_content {c : Char} (hcn : c ≠ '\n') {a : List Char}
    (ha : '\n' ∉ a) (rest : List Char) :
    closeAttempt c (a ++ '"' :: rest) = Option.none := by
  unfold closeAttempt
  rw [if_neg hcn]
  cases hf : fence3At (c :: (a ++ '"' :: rest)) with
  | none => rfl
  | some r' =>
      show mdCloseTail r' = Option.none
      have heq := fence3At_eq_some hf
      injection heq with h1 h2
      cases a with
      | nil =>
          rw [List.nil_append] at h2
          injection h2 with h3 _
          exact absurd h3 (by decide)
      | cons a1 a' =>
          rw [List.cons_append] at h2
          injection h2 with h3 h4
          cases a' with
          | nil =>
              rw [List.nil_append] at h4
              injection h4 with h5 _
              exact absurd h5 (by decide)
          | cons a2 a'' =>
              rw [List.cons_append] at h4
              injection h4 with h5 h6
              have ha'' : '\n' ∉ a'' := fun hm =>
                ha (List.mem_cons_of_mem _ (List.mem_cons_of_mem _ hm))
              rw [← h6]
              exact mdCloseTail_none ha'' rest

theorem noClose_strcontent : ∀ (content : List Char), '\n' ∉ content →
    ∀ {rest : List Char}, NoClose rest → NoClose (content ++ '"' :: rest) := by
  intro content
  induction content with
  | nil =>
      intro _ rest hr
      exact ⟨closeAttempt_plainchar (by decide) (by decide) rest, hr⟩
  | cons c content' ih =>
      intro hc rest hr
      have hcn : c ≠ '\n' := fun h => hc (by rw [h]; exact List.mem_cons_self _ _)
      have hc' : '\n' ∉ content' := fun h => hc (List.mem_cons_of_mem _ h)
      exact ⟨closeAttempt_in_content hcn hc' rest, ih hc' hr⟩

theorem noClose_plain : ∀ (p : List Char), '`' ∉ p →
    ∀ {rest : List Char}, headNotTick rest → NoClose rest → NoClose (p ++ rest) := by
  intro p
  induction p with
  | nil => intro _ rest _ hr; exact hr
  | cons c p' ih =>
      intro hp rest hnt hr
      have hct : c ≠ '`' := fun h => hp (by rw [h]; exact List.mem_cons_self _ _)
      have hp' : '`' ∉ p' := fun h => hp (List.mem_cons_of_mem _ h)
      have htail : NoClose (p' ++ rest) := ih hp' hnt hr
      refine ⟨?_, htail⟩
      by_cases hcn : c = '\n'
      · subst hcn
        apply closeAttempt_nl
        cases p' with
        | nil => exact hnt
        | cons d p'' =>
            exact fun h => hp' (by rw [h]; exact List.mem_cons_self _ _)
      · exact closeAttempt_plainchar hcn hct _

theorem noClose_str {content : List Char} (hc : '\n' ∉ content)
    {rest : List Char} (hr : NoClose rest) :
    NoClose ('"' :: content ++ '"' :: rest) :=
  ⟨closeAttempt_plainchar (by decide) (by decide) _, noClose_strcontent content hc hr⟩

theorem headNotTick_render : ∀ (segs : List JSeg), (∀ s ∈ segs, s.good) →
    ∀ {tail : List Char}, headNotTick tail →
    headNotTick (renderSegs segs ++ tail) := by
  intro segs
  induction segs with
  | nil => intro _ tail ht; exact ht
  | cons s t ih =>
      intro hg tail ht
      have hs : s.good := hg s (List.mem_cons_self _ _)
      have hgt : ∀ x ∈ t, x.good := fun x hx => hg x (List.mem_cons_of_mem _ hx)
      cases s with
      | plain cs =>
          cases cs with
          | nil => exact ih hgt ht
          | cons c cs' =>
              exact fun h => hs (by rw [h]; exact List.mem_cons_self _ _)
      | strlit content =>
          exact (by decide : '"' ≠ '`')

theorem noClose_render : ∀ (segs : List JSeg), (∀ s ∈ segs, s.good) →
    ∀ {tail : List Char}, headNotTick tail → NoClose tail →
    NoClose (renderSegs segs ++ tail) := by
  intro segs
  induction segs with
  | nil => intro _ tail _ ht; exact ht
  | cons s t ih =>
      intro hg tail hnt hnc
      have hs : s.good := hg s (List.mem_cons_self _ _)
      have hgt : ∀ x ∈ t, x.good := fun x hx => hg x (List.mem_cons_of_mem _ hx)
      have hrest_nt : headNotTick (renderSegs t ++ tail) := headNotTick_render t hgt hnt
      have hrest : NoClose (renderSegs t ++ tail) := ih hgt hnt hnc
      cases s with
      | plain cs =>
          have hres := noClose_plain cs hs hrest_nt hrest
          have hshape : renderSegs (JSeg.plain cs :: t) ++ tail
              = cs ++ (renderSegs t ++ tail) := by
            simp only [renderSegs, JSeg.render, List.append_assoc]
          rw [hshape]
          exact hres
      | strlit content =>
          have hres := noClose_str hs hrest
          have hshape : renderSegs (JSeg.strlit content :: t) ++ tail
              = '"' :: content ++ '"' :: (renderSegs t ++ tail) := by
            simp only [renderSegs, JSeg.render, List.cons_append, List.append_assoc]
            simp
          rw [hshape]
          exact hres

theorem mdSubClose_id : ∀ (f : Nat) (l : List Char), NoClose l →
    mdSubClose f l = l := by
  intro f
  induction f with
  | zero => intro l _; rfl
  | succ f ih =>
      intro l hl
      cases l with
      | nil => rfl
      | cons c r =>
          obtain ⟨h1, h2⟩ := hl
          unfold mdSubClose
          rw [h1]
          show c :: mdSubClose f r = c :: r
          rw [ih r h2]

theorem noFenceStart_flag {l : List Char} (hl : headNotTick l) {b : Bool}
    (h : noFenceStart b l) (b' : Bool) : noFenceStart b' l := by
  cases l with
  | nil => trivial
  | cons c r =>
      obtain ⟨-, h2⟩ := h
      exact ⟨fun _ => hl, h2⟩

theorem noFenceStart_append_plain : ∀ (p : List Char), '`' ∉ p →
    ∀ {rest : List Char}, (∀ b', noFenceStart b' rest) →
    ∀ b, noFenceStart b (p ++ rest) := by
  intro p
  induction p with
  | nil => intro _ rest hrest b; exact hrest b
  | cons c p' ih =>
      intro hp rest hrest b
      have hct : c ≠ '`' := fun h => hp (by rw [h]; exact List.mem_cons_self _ _)
      have hp' : '`' ∉ p' := fun h => hp (List.mem_cons_of_mem _ h)
      exact ⟨fun _ => hct, ih hp' hrest _⟩

theorem noFenceStart_nlfree : ∀ (a : List Char), '\n' ∉ a →
    ∀ {tail : List Char}, noFenceStart false tail →
    noFenceStart false (a ++ tail) := by
  intro a
  induction a with
  | nil => intro _ tail ht; exact ht
  | cons c a' ih =>
      intro ha tail ht
      have hcn : c ≠ '\n' := fun h => ha (by rw [h]; exact List.mem_cons_self _ _)
      have ha' : '\n' ∉ a' := fun h => ha (List.mem_cons_of_mem _ h)
      refine ⟨fun hb => absurd hb (by simp), ?_⟩
      have hdec : (decide (c = '\n')) = false := decide_eq_false hcn
      rw [hdec]
      exact ih ha' ht

theorem noFenceStart_str {content : List Char} (hc : '\n' ∉ content)
    {rest : List Char} (hrest : ∀ b', noFenceStart b' rest) :
    ∀ b, noFenceStart b ('"' :: content ++ '"' :: rest) := by
  intro b
  have h1 : noFenceStart false ('"' :: rest) :=
    ⟨fun _ => by decide, hrest _⟩
  have h2 : noFenceStart false (content ++ '"' :: rest) :=
    noFenceStart_nlfree content hc h1
  refine ⟨fun _ => by decide, ?_⟩
  have hdec : (decide ('"' = '\n')) = false := by decide
  rw [hdec]
  exact h2

theorem noFenceStart_render : ∀ (segs : List JSeg), (∀ s ∈ segs, s.good) →
    ∀ {tail : List Char}, headNotTick tail → (∀ b', noFenceStart b' tail) →
    ∀ b, noFenceStart b (renderSegs segs ++ tail) := by
  intro segs
  induction segs with
  | nil => intro _ tail _ hns b; exact hns b
  | cons s t ih =>
      intro hg tail hnt hns b
      have hs : s.good := hg s (List.mem_cons_self _ _)
      have hgt : ∀ x ∈ t, x.good := fun x hx => hg x (List.mem_cons_of_mem _ hx)
      have hrest : ∀ b', noFenceStart b' (renderSegs t ++ tail) := ih hgt hnt hns
      cases s with
      | plain cs =>
          have hres := noFenceStart_append_plain cs hs hrest b
          have hshape : renderSegs (JSeg.plain cs :: t) ++ tail
              = cs ++ (renderSegs t ++ tail) := by
            simp only [renderSegs, JSeg.render, List.append_assoc]
          rw [hshape]
          exact hres
      | strlit content =>
          have hres := noFenceStart_str hs hrest b
          have hshape : renderSegs (JSeg.strlit content :: t) ++ tail
              = '"' :: content ++ '"' :: (renderSegs t ++ tail) := by
            simp only [renderSegs, JSeg.render, List.cons_append, List.append_assoc]
            simp
          rw [hshape]
          exact hres

theorem mdSubFenceJson_id : ∀ (f : Nat) (b : Bool) (l : List Char),
    noFenceStart b l → mdSubFenceJson f b l = l := by
  intro f
  induction f with
  | zero => intro b l _; rfl
  | succ f ih =>
      intro b l hl
      cases l with
      | nil => rfl
      | cons c r =>
          obtain ⟨h1, h2⟩ := hl
          have hatt : (if b then fenceJsonAt (c :: r) else Option.none)
              = Option.none := by
            cases b with
            | false => rfl
            | true =>
                rw [if_pos rfl]
                exact fenceJsonAt_ne (h1 rfl) r
          show (match (if b then fenceJsonAt (c :: r) else Option.none) with
                | some rest =>
                    match dropPySpaces rest false with
                    | (rest2, nl) => mdSubFenceJson f nl rest2
                | Option.none => c :: mdSubFenceJson f (c = '\n') r) = c :: r
          rw [hatt]
          show c :: mdSubFenceJson f (c = '\n') r = c :: r
          rw [ih _ r h2]

theorem mdSubFence_id : ∀ (f : Nat) (b : Bool) (l : List Char),
    noFenceStart b l → mdSubFence f b l = l := by
  intro f
  induction f with
  | zero => intro b l _; rfl
  | succ f ih =>
      intro b l hl
      cases l with
      | nil => rfl
      | cons c r =>
          obtain ⟨h1, h2⟩ := hl
          have hatt : (if b then fence3At (c :: r) else Option.none)
              = Option.none := by
            cases b with
            | false => rfl
            | true =>
                rw [if_pos rfl]
                exact fence3At_ne (h1 rfl) r
          show (match (if b then fence3At (c :: r) else Option.none) with
                | some rest =>
                    match dropPySpaces rest false with
                    | (rest2, nl) => mdSubFence f nl rest2
                | Option.none => c :: mdSubFence f (c = '\n') r) = c :: r
          rw [hatt]
          show c :: mdSubFence f (c = '\n') r = c :: r
          rw [ih _ r h2]

theorem stripMarkdownFences_id {cs : List Char} (hd : Decomp cs [])
    (hstrip : pystripChars cs = cs) : stripMarkdownFences cs = cs := by
  obtain ⟨segs, hg, he⟩ := hd
  rw [List.append_nil] at he
  subst he
  have hnt : headNotTick (renderSegs segs) := by
    have hh := headNotTick_render segs hg (show headNotTick [] from trivial)
    rwa [List.append_nil] at hh
  have hnfs : ∀ b, noFenceStart b (renderSegs segs) := by
    intro b
    have hh := noFenceStart_render segs hg (show headNotTick [] from trivial)
      (fun b' => (show noFenceStart b' [] from trivial)) b
    rwa [List.append_nil] at hh
  have hnc : NoClose (renderSegs segs) := by
    have hh := noClose_render segs hg (show headNotTick [] from trivial)
      (show NoClose [] from trivial)
    rwa [List.append_nil] at hh
  simp only [stripMarkdownFences]
  rw [mdSubFenceJson_id _ _ _ (hnfs true)]
  rw [mdSubFence_id _ _ _ (hnfs true)]
  rw [mdSubClose_id _ _ hnc]
  exact hstrip

/-- C3: the claim that `clean_json_response` returns every already-valid JSON
string unchanged is false as stated: the decoder applies `strip()` before the
fast-path parse, so valid JSON with surrounding whitespace comes back
trimmed.  Amended: for every string that parses as JSON and is already
`strip()`-clean, `clean_json_response` is the identity — the three
markdown-fence `re.sub` passes cannot fire on such a string (every backtick
lies inside a string literal, so none sits at a multiline `^` anchor and no
<code>```</code> run is followed by whitespace to a line end), and the fast
path returns the text before any repair runs. -/
theorem c3_clean_identity_on_valid (s : String) (hv : jsonValid s = true)
    (hs : pystrip s = s) : clean_json_response s = s := by
  have hdata : pystripChars s.data = s.data := congrArg String.data hs
  have hsm : stripMarkdownFences s.data = s.data :=
    stripMarkdownFences_id (jsonValid_decomp s hv) hdata
  have hcc : cleanJsonChars s.data = s.data := by
    simp only [cleanJsonChars]
    by_cases h0 : s.data = []
    · rw [if_pos h0]
    · rw [if_neg h0]
      rw [hsm]
      have hvv : (jsonLoadsChars s.data).isSome = true := hv
      rw [if_pos hvv]
  show String.mk (cleanJsonChars s.data) = s
  rw [hcc]

/-- C3 counterexample: `" \x7b\x7d"` is valid JSON (whitespace is legal
around a JSON value), yet `clean_json_response` strips it to `"\x7b\x7d"`,
so the decoder does not return every valid-JSON input unchanged. -/
theorem c3_counterexample :
    jsonValid " \x7b\x7d" = true ∧ clean_json_response " \x7b\x7d" ≠ " \x7b\x7d" :=
  ⟨by decide, by decide⟩

theorem c3_clean_identity_on_valid_witness :
    jsonValid "\x7b\"a\": 1\x7d" = true ∧
    pystrip "\x7b\"a\": 1\x7d" = "\x7b\"a\": 1\x7d" ∧
    clean_json_response "\x7b\"a\": 1\x7d" = "\x7b\"a\": 1\x7d" :=
  ⟨by decide, by decide, c3_clean_identity_on_valid _ (by decide) (by decide)⟩
